import Mathlib

/-!
Verification of the matrix / Armijo line search / gradient descent library
(`src/lib.hpp`).  The C++ code is shallowly embedded: `double` becomes `ℝ`,
`unsigned` indices become `ℕ` with explicit wraparound of the `i - 1`
subtraction modulo `2 ^ 32`, and `vector::at` (which throws
`std::out_of_range`) becomes `Except MatrixError`.  Loops become explicit
structural folds (`eFold`) or fueled recursions.
-/

namespace UOpt

/-- Errors the C++ code can throw: `std::out_of_range` from `vector::at`,
and `std::invalid_argument` with a message. -/
inductive MatrixError where
  | outOfRange : MatrixError
  | invalidArgument : String → MatrixError
deriving DecidableEq

/-- The number of values of the C++ `unsigned` type (32 bits). -/
def U32 : ℕ := 2 ^ 32

/-- The C++ expression `i - 1` evaluated on `unsigned`: subtraction wraps
modulo `2 ^ 32`, so `0 - 1` is `2 ^ 32 - 1`. -/
def uSub1 (i : ℕ) : ℕ := (i + (U32 - 1)) % U32

/-- The `Matrix` class: row count `m`, column count `n`, and the backing
storage `v : vector<vector<double>>` (a list of rows). -/
structure Matrix where
  m : ℕ
  n : ℕ
  v : List (List ℝ)

namespace Matrix

/-- Embeds `Matrix::length()`: the number of elements, `m * n`. -/
def length (A : Matrix) : ℕ := A.m * A.n

/-- The representation invariant of a well-formed matrix storage:
`v` has exactly `m` rows, each of length `n`. -/
def Perfect (A : Matrix) : Prop :=
  A.v.length = A.m ∧ ∀ r ∈ A.v, r.length = A.n

/-- Well-formed matrix: perfect storage, and the dimensions fit the C++
`unsigned` arithmetic used by the accessors (`m`, `n` and the element count
`m * n` are representable). -/
def WF (A : Matrix) : Prop :=
  A.Perfect ∧ A.m < U32 ∧ A.n < U32 ∧ A.m * A.n < U32

/-- Total observer of the `(i, j)` element (1-based), used to state
specifications; out-of-range positions read as `0`. -/
def entry (A : Matrix) (i j : ℕ) : ℝ := (A.v.getD (i - 1) []).getD (j - 1) 0

/-- Embeds `Matrix::get(unsigned i, unsigned j)`: `v.at(i-1).at(j-1)`. -/
def get (A : Matrix) (i j : ℕ) : Except MatrixError ℝ :=
  match A.v[uSub1 i]? with
  | none => .error .outOfRange
  | some row =>
    match row[uSub1 j]? with
    | none => .error .outOfRange
    | some x => .ok x

/-- Embeds `Matrix::set(unsigned i, unsigned j, double value)`:
`v.at(i-1).at(j-1) = value` (functional update). -/
def set (A : Matrix) (i j : ℕ) (x : ℝ) : Except MatrixError Matrix :=
  match A.v[uSub1 i]? with
  | none => .error .outOfRange
  | some row =>
    if uSub1 j < row.length then
      .ok ⟨A.m, A.n, A.v.set (uSub1 i) (row.set (uSub1 j) x)⟩
    else .error .outOfRange

/-- Embeds `Matrix::get(unsigned i)`: linear column-major access,
`v.at((i-1) % m).at((i-1) / m)`. -/
def getLin (A : Matrix) (i : ℕ) : Except MatrixError ℝ :=
  match A.v[uSub1 i % A.m]? with
  | none => .error .outOfRange
  | some row =>
    match row[uSub1 i / A.m]? with
    | none => .error .outOfRange
    | some x => .ok x

/-- Embeds `Matrix::set(unsigned i, double value)`: linear column-major update,
`v.at((i-1) % m).at((i-1) / m) = value`. -/
def setLin (A : Matrix) (i : ℕ) (x : ℝ) : Except MatrixError Matrix :=
  match A.v[uSub1 i % A.m]? with
  | none => .error .outOfRange
  | some row =>
    if uSub1 i / A.m < row.length then
      .ok ⟨A.m, A.n, A.v.set (uSub1 i % A.m) (row.set (uSub1 i / A.m) x)⟩
    else .error .outOfRange

/-- Embeds `Matrix::Matrix(unsigned rows, unsigned cols, double value)`:
`rows × cols` matrix filled with `value`. -/
def ofDim (m n : ℕ) (x : ℝ) : Matrix :=
  ⟨m, n, List.replicate m (List.replicate n x)⟩

/-- The functional update performed by a successful `Matrix::set(i, j, v)`. -/
def setPure (A : Matrix) (i j : ℕ) (x : ℝ) : Matrix :=
  ⟨A.m, A.n, A.v.set (uSub1 i) ((A.v.getD (uSub1 i) []).set (uSub1 j) x)⟩

end Matrix

/-- The storage of the matrix whose `(i, j)` entry (1-based) is `g i j`. -/
def ofFun (m n : ℕ) (g : ℕ → ℕ → ℝ) : List (List ℝ) :=
  (List.range m).map (fun i => (List.range n).map (fun j => g (i + 1) (j + 1)))

/-- A fold over a list that may stop with an error, the shape of every
`for` loop in the C++ code whose body can throw. -/
def eFold {α β : Type} (step : α → β → Except MatrixError α) :
    List β → α → Except MatrixError α
  | [], a => .ok a
  | b :: l, a =>
    match step a b with
    | .error e => .error e
    | .ok a2 => eFold step l a2

/-- The index pairs `(i, j)` visited by the nested loops
`for i = 1..m { for j = 1..n }`, in visiting order. -/
def loopIdx (m n : ℕ) : List (ℕ × ℕ) :=
  (List.range m).flatMap (fun i => (List.range n).map (fun j => (i + 1, j + 1)))

namespace Matrix

/-- The common shape of the arithmetic operators: build an `m × n` result by
`Matrix a(m, n); for i, j: a.set(i, j, value i j)` where computing the value
may throw. -/
def build (m n : ℕ) (f : ℕ → ℕ → Except MatrixError ℝ) :
    Except MatrixError Matrix :=
  eFold (fun a ij =>
    match f ij.1 ij.2 with
    | .error e => .error e
    | .ok val => a.set ij.1 ij.2 val) (loopIdx m n) (ofDim m n 0)

/-- Embeds `Matrix::operator+`: elementwise `get(i,j) + o.get(i,j)` over this
matrix's dimensions. -/
def add (A B : Matrix) : Except MatrixError Matrix :=
  build A.m A.n (fun i j =>
    match A.get i j with
    | .error e => .error e
    | .ok x =>
      match B.get i j with
      | .error e => .error e
      | .ok y => .ok (x + y))

/-- Embeds `Matrix::operator-`: elementwise `get(i,j) - o.get(i,j)` over this
matrix's dimensions. -/
def sub (A B : Matrix) : Except MatrixError Matrix :=
  build A.m A.n (fun i j =>
    match A.get i j with
    | .error e => .error e
    | .ok x =>
      match B.get i j with
      | .error e => .error e
      | .ok y => .ok (x - y))

/-- Embeds `Matrix::operator*(double s)`: elementwise `s * get(i,j)`. -/
def mulScalar (A : Matrix) (s : ℝ) : Except MatrixError Matrix :=
  build A.m A.n (fun i j =>
    match A.get i j with
    | .error e => .error e
    | .ok x => .ok (s * x))

/-- Embeds `operator*(double s, const Matrix& o)`: defined as `o * s`. -/
def scalarMul (s : ℝ) (A : Matrix) : Except MatrixError Matrix :=
  A.mulScalar s

/-- Embeds `Matrix::operator/(double s)`: elementwise `s / get(i,j)` — the scalar
divided by the element. -/
noncomputable def divScalar (A : Matrix) (s : ℝ) : Except MatrixError Matrix :=
  build A.m A.n (fun i j =>
    match A.get i j with
    | .error e => .error e
    | .ok x => .ok (s / x))

/-- Embeds `Matrix::transpose()`: `Matrix w(cols, rows); for i, j: w.set(j, i,
get(i, j))`. -/
def transpose (A : Matrix) : Except MatrixError Matrix :=
  eFold (fun w ij =>
    match A.get ij.1 ij.2 with
    | .error e => .error e
    | .ok val => w.set ij.2 ij.1 val) (loopIdx A.m A.n) (ofDim A.n A.m 0)

/-- Embeds `Matrix::t()`: alias for `transpose`. -/
def t (A : Matrix) : Except MatrixError Matrix := A.transpose

/-- Embeds `Matrix::det2()`: guard `m != 2 && n != 2`, then
`get(1,1) * get(2,2) - get(1,2) * get(2,1)`. -/
def det2 (A : Matrix) : Except MatrixError ℝ :=
  if A.m ≠ 2 ∧ A.n ≠ 2 then
    .error (.invalidArgument ("Can\x27t apply det2 to a non 2x2 matrix"))
  else
    match A.get 1 1 with
    | .error e => .error e
    | .ok a11 =>
      match A.get 2 2 with
      | .error e => .error e
      | .ok a22 =>
        match A.get 1 2 with
        | .error e => .error e
        | .ok a12 =>
          match A.get 2 1 with
          | .error e => .error e
          | .ok a21 => .ok (a11 * a22 - a12 * a21)

/-- The summation loop of `Matrix::mod()`:
`for i = 1..length(): sum += get(i) * get(i)`. -/
def modSumSq (A : Matrix) : Except MatrixError ℝ :=
  eFold (fun s i =>
    match A.getLin (i + 1) with
    | .error e => .error e
    | .ok x => .ok (s + x * x)) (List.range A.length) 0

/-- Embeds `Matrix::mod()`: `sqrt` of the sum of the squares of all elements,
visited in linear column-major order. -/
noncomputable def mod (A : Matrix) : Except MatrixError ℝ :=
  match A.modSumSq with
  | .error e => .error e
  | .ok s => .ok (Real.sqrt s)

/-- Embeds `Matrix::x()`: the sole element of a 1×1 matrix. -/
def x (A : Matrix) : Except MatrixError ℝ :=
  if A.m = 1 ∧ A.n = 1 then A.get 1 1
  else .error (.invalidArgument ("Not a 1x1 Matrix"))

/-- Embeds `Matrix::x1()`: first element of a 2×1 column vector. -/
def x1 (A : Matrix) : Except MatrixError ℝ :=
  if A.m = 2 ∧ A.n = 1 then A.get 1 1
  else .error (.invalidArgument ("Not a 2x1 column vector"))

/-- Embeds `Matrix::x2()`: second element of a 2×1 column vector. -/
def x2 (A : Matrix) : Except MatrixError ℝ :=
  if A.m = 2 ∧ A.n = 1 then A.get 2 1
  else .error (.invalidArgument ("Not a 2x1 column vector"))

/-- The inner `k` loop of `Matrix::operator*(const Matrix&)`:
`sum += get(i,k) * o.get(k,j)` for `k = 1..cols`. -/
def dotIJ (A B : Matrix) (i j : ℕ) : Except MatrixError ℝ :=
  eFold (fun s k =>
    match A.get i (k + 1) with
    | .error e => .error e
    | .ok xv =>
      match B.get (k + 1) j with
      | .error e => .error e
      | .ok yv => .ok (s + xv * yv)) (List.range A.n) 0

/-- Embeds `Matrix::operator*(const Matrix&)`: guard `cols == o.rows`, then the
triple loop computing the standard product. -/
def mulMat (A B : Matrix) : Except MatrixError Matrix :=
  if A.n ≠ B.m then .error (.invalidArgument ("Invalid matrix multiplication"))
  else build A.m B.n (fun i j => dotIJ A B i j)

end Matrix

/-- The test of the `while` loop of `armijo_call` at exponent `k`:
the value of the C++ expression
`f(x) - f(x + s*pow(beta,k)*d) >= -sigma*s*pow(beta,k)*((gradf(x)).t() * d).x()`,
threaded through the exceptions its matrix subexpressions can throw. -/
def armijoTest (s beta sigma : ℝ) (f : Matrix → ℝ) (gradf : Matrix → Matrix)
    (xv d : Matrix) (k : ℕ) : Except MatrixError Prop :=
  match Matrix.scalarMul (s * beta ^ k) d with
  | .error e => .error e
  | .ok step =>
    match xv.add step with
    | .error e => .error e
    | .ok trial =>
      match (gradf xv).t with
      | .error e => .error e
      | .ok gt =>
        match gt.mulMat d with
        | .error e => .error e
        | .ok gtd =>
          match gtd.x with
          | .error e => .error e
          | .ok slope =>
            .ok (f xv - f trial ≥ -sigma * s * beta ^ k * slope)

/-- The loop test at exponent `k` evaluates without throwing and is true:
the iteration at which `armijo_call` breaks out of its loop. -/
def ArmijoPasses (s beta sigma : ℝ) (f : Matrix → ℝ) (gradf : Matrix → Matrix)
    (xv d : Matrix) (k : ℕ) : Prop :=
  ∃ p, armijoTest s beta sigma f gradf xv d k = .ok p ∧ p

/-- The loop body at exponent `k` stops the search: either the test throws,
or it evaluates to true. -/
def ArmijoHalts (s beta sigma : ℝ) (f : Matrix → ℝ) (gradf : Matrix → Matrix)
    (xv d : Matrix) (k : ℕ) : Prop :=
  (∃ e, armijoTest s beta sigma f gradf xv d k = .error e) ∨
    ArmijoPasses s beta sigma f gradf xv d k

open Classical in
/-- Embeds `armijo_call`: runs the unbounded `while` loop from exponent `0`.
`some (.ok t)` means the loop breaks and returns the step `t = s * beta ^ m`
at the first passing exponent `m`; `some (.error e)` means the test threw;
`none` means the loop never halts. -/
noncomputable def armijo_call (s beta sigma : ℝ) (f : Matrix → ℝ)
    (gradf : Matrix → Matrix) (xv d : Matrix) :
    Option (Except MatrixError ℝ) :=
  if h : ∃ k, ArmijoHalts s beta sigma f gradf xv d k then
    match armijoTest s beta sigma f gradf xv d (Nat.find h) with
    | .error e => some (.error e)
    | .ok _ => some (.ok (s * beta ^ (Nat.find h)))
  else none

open Classical in
/-- The `while` loop of `armijo_call` as a fueled small-step recursion:
`armijoLoop ... k fuel` runs the loop starting at exponent `k` for at most
`fuel` iterations; `none` means the fuel ran out before the loop halted. -/
noncomputable def armijoLoop (s beta sigma : ℝ) (f : Matrix → ℝ)
    (gradf : Matrix → Matrix) (xv d : Matrix) :
    ℕ → ℕ → Option (Except MatrixError ℝ)
  | _, 0 => none
  | k, fuel + 1 =>
    match armijoTest s beta sigma f gradf xv d k with
    | .error e => some (.error e)
    | .ok p =>
      if p then some (.ok (s * beta ^ k))
      else armijoLoop s beta sigma f gradf xv d (k + 1) fuel

/-- The `while` loop of `gradient_method`, fueled.  Each iteration checks
`gradf(xk).mod() < epsilon`; on convergence the driver prints
`xk.x1()`, `xk.x2()` (which can throw) and returns `xk`; otherwise it
computes `dk = (-1) * gradf(xk)`, calls Armijo with the hardcoded
`(0.8, 0.8, 0.8)`, and advances to `xk + ak * dk`. -/
noncomputable def gmLoop (f : Matrix → ℝ) (gradf : Matrix → Matrix)
    (epsilon : ℝ) : Matrix → ℕ → Option (Except MatrixError Matrix)
  | _, 0 => none
  | xk, fuel + 1 =>
    match (gradf xk).mod with
    | .error e => some (.error e)
    | .ok nrm =>
      if nrm < epsilon then
        match xk.x1 with
        | .error e => some (.error e)
        | .ok _ =>
          match xk.x2 with
          | .error e => some (.error e)
          | .ok _ => some (.ok xk)
      else
        match Matrix.scalarMul (-1) (gradf xk) with
        | .error e => some (.error e)
        | .ok dk =>
          match armijo_call 0.8 0.8 0.8 f gradf xk dk with
          | none => none
          | some (.error e) => some (.error e)
          | some (.ok ak) =>
            match Matrix.scalarMul ak dk with
            | .error e => some (.error e)
            | .ok step =>
              match xk.add step with
              | .error e => some (.error e)
              | .ok xnext => gmLoop f gradf epsilon xnext fuel

/-- Embeds `gradient_method`: before the loop, the driver prints the initial point
via `x0.x1()` and `x0.x2()`, which throw unless `x0` is a 2×1 column vector;
then it runs the descent loop. -/
noncomputable def gradient_method (f : Matrix → ℝ) (gradf : Matrix → Matrix)
    (x0 : Matrix) (epsilon : ℝ) (fuel : ℕ) :
    Option (Except MatrixError Matrix) :=
  match x0.x1 with
  | .error e => some (.error e)
  | .ok _ =>
    match x0.x2 with
    | .error e => some (.error e)
    | .ok _ => gmLoop f gradf epsilon x0 fuel

/-- Modelled from the spec: the trial point `x + c·d` written directly as a
matrix of elementwise values, used to state the Armijo condition the way the
specification writes it. -/
def axpy (xv d : Matrix) (c : ℝ) : Matrix :=
  ⟨xv.m, xv.n, (List.range xv.m).map (fun i =>
    (List.range xv.n).map (fun j =>
      xv.entry (i + 1) (j + 1) + c * d.entry (i + 1) (j + 1)))⟩

/-- Modelled from the spec: the scalar `gradf(x)ᵗ d`, the dot product of two
column vectors. -/
def colDot (g d : Matrix) : ℝ :=
  ∑ k ∈ Finset.range g.m, g.entry (k + 1) 1 * d.entry (k + 1) 1

/-- Modelled from the spec: the Armijo sufficient-decrease condition at
exponent `k`, `f(x) − f(x + s·β^k·d) ≥ −σ·s·β^k·(∇f(x)ᵗ d)`. -/
def ArmijoCondSpec (s beta sigma : ℝ) (f : Matrix → ℝ)
    (gradf : Matrix → Matrix) (xv d : Matrix) (k : ℕ) : Prop :=
  f xv - f (axpy xv d (s * beta ^ k)) ≥
    -sigma * s * beta ^ k * colDot (gradf xv) d

/-- The stopping criterion of the descent loop holds at `x`:
`gradf(x).mod()` evaluates and is below `epsilon`. -/
def Converged (gradf : Matrix → Matrix) (epsilon : ℝ) (xv : Matrix) : Prop :=
  ∃ r, (gradf xv).mod = .ok r ∧ r < epsilon

/-- The stopping criterion fails at `x`: the norm evaluates and is not below
`epsilon`, so the loop performs another iteration. -/
def NotConverged (gradf : Matrix → Matrix) (epsilon : ℝ) (xv : Matrix) : Prop :=
  ∃ r, (gradf xv).mod = .ok r ∧ ¬r < epsilon

/-- Modelled from the spec: one iteration of the descent loop.  The direction
is `dk = (-1) * gradf(xk)`, the step size comes from the Armijo search with
the hardcoded parameters `(0.8, 0.8, 0.8)`, and the next iterate is
`xk + ak * dk`. -/
def DescentStep (f : Matrix → ℝ) (gradf : Matrix → Matrix)
    (xv y : Matrix) : Prop :=
  ∃ dk ak step,
    Matrix.scalarMul (-1) (gradf xv) = .ok dk ∧
    armijo_call 0.8 0.8 0.8 f gradf xv dk = some (.ok ak) ∧
    Matrix.scalarMul ak dk = .ok step ∧
    xv.add step = .ok y

/-- Modelled from the spec: the reflexive-transitive closure of descent
iterations performed while the stopping criterion fails. -/
inductive DescentReaches (f : Matrix → ℝ) (gradf : Matrix → Matrix)
    (epsilon : ℝ) : Matrix → Matrix → Prop
  | done (xv : Matrix) : DescentReaches f gradf epsilon xv xv
  | step (xv y z : Matrix) :
      NotConverged gradf epsilon xv →
      DescentStep f gradf xv y →
      DescentReaches f gradf epsilon y z →
      DescentReaches f gradf epsilon xv z

/-! ### Arithmetic of the wrapped unsigned subtraction -/

lemma U32_pos : 0 < U32 := by norm_num [U32]

lemma uSub1_succ (i : ℕ) (h : i < U32) : uSub1 (i + 1) = i := by
  have h1 : 1 ≤ U32 := U32_pos
  have h2 : i + 1 + (U32 - 1) = i + U32 := by omega
  rw [uSub1, h2, Nat.add_mod_right, Nat.mod_eq_of_lt h]

lemma uSub1_of_pos (i : ℕ) (h1 : 1 ≤ i) (h2 : i < U32) : uSub1 i = i - 1 := by
  obtain ⟨k, rfl⟩ : ∃ k, i = k + 1 := ⟨i - 1, by omega⟩
  rw [uSub1_succ k (by omega)]
  omega

lemma uSub1_zero : uSub1 0 = U32 - 1 := by
  have h1 : 1 ≤ U32 := U32_pos
  rw [uSub1, Nat.zero_add, Nat.mod_eq_of_lt (by omega)]

/-! ### Entry observer and accessor lemmas -/

namespace Matrix

lemma perfect_row {A : Matrix} (h : A.Perfect) {k : ℕ} (hk : k < A.m) :
    A.v[k]? = some (A.v.getD k []) ∧ (A.v.getD k []).length = A.n := by
  have hlen : k < A.v.length := by rw [h.1]; exact hk
  have h1 : A.v[k]? = some A.v[k] := List.getElem?_eq_getElem hlen
  have h2 : A.v.getD k [] = A.v[k] := List.getD_eq_getElem A.v [] hlen
  refine ⟨by rw [h1, h2], ?_⟩
  rw [h2]
  exact h.2 _ (List.getElem_mem hlen)

lemma entry_eq_getElem {A : Matrix} (h : A.Perfect) {i j : ℕ}
    (hi1 : 1 ≤ i) (hi2 : i ≤ A.m) (hj1 : 1 ≤ j) (hj2 : j ≤ A.n) :
    A.entry i j = ((A.v.getD (i - 1) []).getD (j - 1) 0) := rfl

lemma get_ok {A : Matrix} (h : A.Perfect) {i j : ℕ}
    (hi1 : 1 ≤ i) (hi2 : i ≤ A.m) (hj1 : 1 ≤ j) (hj2 : j ≤ A.n)
    (hiU : i < U32) (hjU : j < U32) :
    A.get i j = .ok (A.entry i j) := by
  have hrow := perfect_row h (show i - 1 < A.m by omega)
  have hcol : j - 1 < (A.v.getD (i - 1) []).length := by rw [hrow.2]; omega
  simp only [get, uSub1_of_pos i hi1 hiU, uSub1_of_pos j hj1 hjU, hrow.1,
    List.getElem?_eq_getElem hcol, entry, List.getD_eq_getElem _ _ hcol]

lemma get_kind {A : Matrix} {i j : ℕ} :
    (∃ y, A.get i j = .ok y) ∨ A.get i j = .error .outOfRange := by
  rcases hr : A.v[uSub1 i]? with _ | row
  · exact Or.inr (by simp only [get, hr])
  · rcases hc : row[uSub1 j]? with _ | y
    · exact Or.inr (by simp only [get, hr, hc])
    · exact Or.inl ⟨y, by simp only [get, hr, hc]⟩

lemma row_mem_of_getElem {A : Matrix} {k : ℕ} {row : List ℝ}
    (hr : A.v[k]? = some row) : row ∈ A.v := by
  obtain ⟨hlt, hEq⟩ := List.getElem?_eq_some_iff.mp hr
  exact hEq ▸ List.getElem_mem hlt

lemma get_isOk_iff {A : Matrix} (h : A.Perfect) {i j : ℕ} :
    (∃ y, A.get i j = .ok y) ↔ (uSub1 i < A.m ∧ uSub1 j < A.n) := by
  constructor
  · rintro ⟨y, hy⟩
    rcases hr : A.v[uSub1 i]? with _ | row
    · simp only [get, hr] at hy
      cases hy
    · have hrm : uSub1 i < A.m := by
        rw [← h.1]
        exact (List.getElem?_eq_some_iff.mp hr).1
      rcases hc : row[uSub1 j]? with _ | z
      · simp only [get, hr, hc] at hy
        cases hy
      · have hrow : row.length = A.n := h.2 row (row_mem_of_getElem hr)
        refine ⟨hrm, ?_⟩
        rw [← hrow]
        exact (List.getElem?_eq_some_iff.mp hc).1
  · rintro ⟨h1, h2⟩
    have hrow := perfect_row h h1
    have hcol : uSub1 j < (A.v.getD (uSub1 i) []).length := by
      rw [hrow.2]; exact h2
    rcases get_kind (A := A) (i := i) (j := j) with hok | herr
    · exact hok
    · simp only [get, hrow.1, List.getElem?_eq_getElem hcol] at herr
      cases herr

lemma get_err {A : Matrix} (h : A.Perfect) {i j : ℕ}
    (hm : A.m < U32) (hn : A.n < U32) (hiU : i < U32) (hjU : j < U32)
    (hout : ¬(1 ≤ i ∧ i ≤ A.m ∧ 1 ≤ j ∧ j ≤ A.n)) :
    A.get i j = .error .outOfRange := by
  have hnotok : ¬(uSub1 i < A.m ∧ uSub1 j < A.n) := by
    intro ⟨h1, h2⟩
    apply hout
    rcases Nat.eq_zero_or_pos i with hi0 | hi1
    · rw [hi0, uSub1_zero] at h1; omega
    rcases Nat.eq_zero_or_pos j with hj0 | hj1
    · rw [hj0, uSub1_zero] at h2; omega
    rw [uSub1_of_pos i hi1 hiU] at h1
    rw [uSub1_of_pos j hj1 hjU] at h2
    omega
  rcases get_kind (A := A) (i := i) (j := j) with hok | herr
  · exact absurd ((get_isOk_iff h).mp hok) hnotok
  · exact herr

lemma set_eq_ok {A : Matrix} {i j : ℕ} {x : ℝ}
    (h1 : uSub1 i < A.v.length)
    (h2 : uSub1 j < (A.v.getD (uSub1 i) []).length) :
    A.set i j x = .ok (A.setPure i j x) := by
  have hr : A.v[uSub1 i]? = some (A.v.getD (uSub1 i) []) := by
    rw [List.getElem?_eq_getElem h1, List.getD_eq_getElem A.v [] h1]
  simp only [set, hr, if_pos h2, setPure]

lemma set_kind {A : Matrix} {i j : ℕ} {x : ℝ} :
    (∃ B, A.set i j x = .ok B) ∨ A.set i j x = .error .outOfRange := by
  rcases hr : A.v[uSub1 i]? with _ | row
  · exact Or.inr (by simp only [set, hr])
  · by_cases hc : uSub1 j < row.length
    · exact Or.inl ⟨⟨A.m, A.n, A.v.set (uSub1 i) (row.set (uSub1 j) x)⟩,
        by simp only [set, hr, if_pos hc]⟩
    · exact Or.inr (by simp only [set, hr, if_neg hc])

lemma set_isOk_iff {A : Matrix} (h : A.Perfect) {i j : ℕ} {x : ℝ} :
    (∃ B, A.set i j x = .ok B) ↔ (uSub1 i < A.m ∧ uSub1 j < A.n) := by
  constructor
  · rintro ⟨B, hB⟩
    rcases hr : A.v[uSub1 i]? with _ | row
    · simp only [set, hr] at hB
      cases hB
    · have hrm : uSub1 i < A.m := by
        rw [← h.1]; exact (List.getElem?_eq_some_iff.mp hr).1
      by_cases hc : uSub1 j < row.length
      · have hrow : row.length = A.n := h.2 row (row_mem_of_getElem hr)
        exact ⟨hrm, by rw [← hrow]; exact hc⟩
      · simp only [set, hr, if_neg hc] at hB
        cases hB
  · rintro ⟨h1, h2⟩
    have hrow := perfect_row h h1
    have hcol : uSub1 j < (A.v.getD (uSub1 i) []).length := by
      rw [hrow.2]; exact h2
    have hlen : uSub1 i < A.v.length := by rw [h.1]; exact h1
    exact ⟨A.setPure i j x, set_eq_ok hlen hcol⟩

lemma setPure_m (A : Matrix) (i j : ℕ) (x : ℝ) : (A.setPure i j x).m = A.m := rfl

lemma setPure_n (A : Matrix) (i j : ℕ) (x : ℝ) : (A.setPure i j x).n = A.n := rfl

lemma setPure_perfect {A : Matrix} (h : A.Perfect) {i j : ℕ} (x : ℝ)
    (hi : uSub1 i < A.m) :
    (A.setPure i j x).Perfect := by
  constructor
  · rw [setPure]
    simpa [List.length_set] using h.1
  · intro r hr
    rcases List.mem_or_eq_of_mem_set hr with hmem | rfl
    · exact h.2 r hmem
    · rw [List.length_set]
      exact (perfect_row h hi).2

lemma entry_getElem? (A : Matrix) (i j : ℕ) :
    A.entry i j = ((A.v[i - 1]?.getD []))[j - 1]?.getD 0 := by
  rw [entry, List.getD_eq_getElem?_getD, List.getD_eq_getElem?_getD]

lemma entry_setPure_self {A : Matrix} (h : A.Perfect) {i j : ℕ} (x : ℝ)
    (hi1 : 1 ≤ i) (hi2 : i ≤ A.m) (hj1 : 1 ≤ j) (hj2 : j ≤ A.n)
    (hiU : i < U32) (hjU : j < U32) :
    (A.setPure i j x).entry i j = x := by
  have hui : uSub1 i = i - 1 := uSub1_of_pos i hi1 hiU
  have huj : uSub1 j = j - 1 := uSub1_of_pos j hj1 hjU
  have hlen : i - 1 < A.v.length := by rw [h.1]; omega
  have hrl : j - 1 < (A.v.getD (i - 1) []).length := by
    rw [(perfect_row h (show i - 1 < A.m by omega)).2]; omega
  rw [entry_getElem?, setPure, hui, huj]
  simp only [List.getElem?_set_eq_of_lt _ hlen, Option.getD_some,
    List.getElem?_set_eq_of_lt _ hrl]

lemma entry_setPure_ne {A : Matrix} {i j r c : ℕ} (x : ℝ)
    (hi1 : 1 ≤ i) (hiU : i < U32) (hj1 : 1 ≤ j) (hjU : j < U32)
    (hr1 : 1 ≤ r) (hc1 : 1 ≤ c) (hne : ¬(r = i ∧ c = j)) :
    (A.setPure i j x).entry r c = A.entry r c := by
  have hui : uSub1 i = i - 1 := uSub1_of_pos i hi1 hiU
  have huj : uSub1 j = j - 1 := uSub1_of_pos j hj1 hjU
  rw [entry_getElem?, entry_getElem?, setPure, hui, huj]
  by_cases hri : r = i
  · subst hri
    have hcj : c ≠ j := fun hc => hne ⟨rfl, hc⟩
    by_cases hlen : r - 1 < A.v.length
    · simp only [List.getElem?_set_eq_of_lt _ hlen, Option.getD_some,
        List.getElem?_eq_getElem hlen, List.getD_eq_getElem?_getD,
        List.getElem?_eq_getElem hlen]
      rw [List.getElem?_set_ne (show ¬(j - 1) = (c - 1) by omega)]
    · have hnone : (A.v.set (r - 1) ((A.v.getD (r - 1) []).set (j - 1) x))[r - 1]? = none := by
        apply List.getElem?_eq_none
        rw [List.length_set]
        omega
      have hnone2 : A.v[r - 1]? = none := List.getElem?_eq_none (by omega)
      rw [hnone, hnone2]
  · rw [List.getElem?_set_ne (show ¬(i - 1) = (r - 1) by omega)]

end Matrix

/-! ### Generic lemmas about the error-propagating fold -/

lemma eFold_ok {α β : Type} (step : α → β → Except MatrixError α)
    (pstep : α → β → α) (inv : α → Prop) (l : List β) :
    ∀ a : α,
      (∀ a2 b, inv a2 → b ∈ l → step a2 b = .ok (pstep a2 b)) →
      (∀ a2 b, inv a2 → b ∈ l → inv (pstep a2 b)) →
      inv a →
      eFold step l a = .ok (l.foldl pstep a) ∧ inv (l.foldl pstep a) := by
  induction l with
  | nil => exact fun a _ _ ha => ⟨rfl, ha⟩
  | cons b l ih =>
    intro a hstep hinv ha
    have hs := hstep a b ha (List.mem_cons_self b l)
    have ha2 := hinv a b ha (List.mem_cons_self b l)
    rw [List.foldl_cons]
    have := ih (pstep a b)
      (fun a2 c h2 hc => hstep a2 c h2 (List.mem_cons_of_mem b hc))
      (fun a2 c h2 hc => hinv a2 c h2 (List.mem_cons_of_mem b hc)) ha2
    exact ⟨by simp only [eFold, hs]; exact this.1, this.2⟩

lemma eFold_inv {α β : Type} (step : α → β → Except MatrixError α)
    (inv : α → Prop)
    (hstep : ∀ a b a2, inv a → step a b = .ok a2 → inv a2) (l : List β) :
    ∀ a r, inv a → eFold step l a = .ok r → inv r := by
  induction l with
  | nil =>
    intro a r ha hr
    rw [eFold] at hr
    cases hr
    exact ha
  | cons b l ih =>
    intro a r ha hr
    rcases hs : step a b with e | a2
    · simp only [eFold, hs] at hr
      cases hr
    · simp only [eFold, hs] at hr
      exact ih a2 r (hstep a b a2 ha hs) hr

lemma eFold_ok_imp {α β : Type} (step : α → β → Except MatrixError α)
    (P : β → Prop) (hP : ∀ a b a2, step a b = .ok a2 → P b) (l : List β) :
    ∀ a, (∃ r, eFold step l a = .ok r) → ∀ b ∈ l, P b := by
  induction l with
  | nil => intro a _ b hb; cases hb
  | cons b l ih =>
    intro a hok c hc
    obtain ⟨r, hr⟩ := hok
    rcases hs : step a b with e | a2
    · simp only [eFold, hs] at hr
      cases hr
    · rcases List.mem_cons.mp hc with rfl | hcl
      · exact hP a c a2 hs
      · simp only [eFold, hs] at hr
        exact ih a2 ⟨r, hr⟩ c hcl

lemma eFold_isOk_iff {α β : Type} (step : α → β → Except MatrixError α)
    (inv : α → Prop) (P : β → Prop) (l : List β) :
    ∀ a,
      (∀ a2 b, inv a2 → b ∈ l → ((∃ a3, step a2 b = .ok a3) ↔ P b)) →
      (∀ a2 b a3, inv a2 → step a2 b = .ok a3 → inv a3) →
      inv a →
      ((∃ r, eFold step l a = .ok r) ↔ ∀ b ∈ l, P b) := by
  induction l with
  | nil =>
    intro a _ _ _
    constructor
    · intro _ b hb; cases hb
    · intro _; exact ⟨a, rfl⟩
  | cons b l ih =>
    intro a hiff hinv ha
    constructor
    · intro hok c hc
      obtain ⟨r, hr⟩ := hok
      rcases hs : step a b with e | a2
      · simp only [eFold, hs] at hr
        cases hr
      · rcases List.mem_cons.mp hc with rfl | hcl
        · exact (hiff a c ha hc).mp ⟨a2, hs⟩
        · simp only [eFold, hs] at hr
          exact (ih a2
            (fun a3 d h3 hd => hiff a3 d h3 (List.mem_cons_of_mem b hd))
            hinv (hinv a b a2 ha hs)).mp ⟨r, hr⟩ c hcl
    · intro hall
      obtain ⟨a2, hs⟩ := (hiff a b ha (List.mem_cons_self b l)).mpr
        (hall b (List.mem_cons_self b l))
      obtain ⟨r, hr⟩ := (ih a2
        (fun a3 d h3 hd => hiff a3 d h3 (List.mem_cons_of_mem b hd))
        hinv (hinv a b a2 ha hs)).mpr
        (fun c hc => hall c (List.mem_cons_of_mem b hc))
      exact ⟨r, by simp only [eFold, hs]; exact hr⟩

lemma eFold_err_kind {α β : Type} (step : α → β → Except MatrixError α)
    (hstep : ∀ a b e, step a b = .error e → e = .outOfRange) (l : List β) :
    ∀ a e, eFold step l a = .error e → e = .outOfRange := by
  induction l with
  | nil =>
    intro a e he
    rw [eFold] at he
    cases he
  | cons b l ih =>
    intro a e he
    rcases hs : step a b with e2 | a2
    · simp only [eFold, hs] at he
      cases he
      exact hstep a b _ hs
    · simp only [eFold, hs] at he
      exact ih a2 e he

/-! ### The loop index list and row-major matrix literals -/

lemma mem_loopIdx {m n : ℕ} {p : ℕ × ℕ} :
    p ∈ loopIdx m n ↔ 1 ≤ p.1 ∧ p.1 ≤ m ∧ 1 ≤ p.2 ∧ p.2 ≤ n := by
  obtain ⟨a, b⟩ := p
  simp only [loopIdx, List.mem_flatMap, List.mem_map, List.mem_range,
    Prod.mk.injEq]
  constructor
  · rintro ⟨i, hi, j, hj, rfl, rfl⟩
    omega
  · rintro ⟨h1, h2, h3, h4⟩
    exact ⟨a - 1, by omega, b - 1, by omega, by omega, by omega⟩

namespace Matrix

lemma ofFun_perfect (m n : ℕ) (g : ℕ → ℕ → ℝ) :
    (Matrix.mk m n (ofFun m n g)).Perfect := by
  constructor
  · simp [ofFun]
  · intro r hr
    simp only [ofFun, List.mem_map, List.mem_range] at hr
    obtain ⟨i, _, rfl⟩ := hr
    simp

lemma entry_ofFun {m n : ℕ} (g : ℕ → ℕ → ℝ) {i j : ℕ}
    (hi1 : 1 ≤ i) (hi2 : i ≤ m) (hj1 : 1 ≤ j) (hj2 : j ≤ n) :
    (Matrix.mk m n (ofFun m n g)).entry i j = g i j := by
  rw [entry_getElem?]
  simp only [ofFun, List.getElem?_map, List.getElem?_range (show i - 1 < m by omega),
    Option.map_some', Option.getD_some,
    List.getElem?_range (show j - 1 < n by omega)]
  have h1 : i - 1 + 1 = i := by omega
  have h2 : j - 1 + 1 = j := by omega
  rw [h1, h2]

lemma ofDim_perfect (m n : ℕ) (x : ℝ) : (ofDim m n x).Perfect := by
  constructor
  · simp [ofDim]
  · intro r hr
    rw [ofDim] at hr
    rcases List.eq_of_mem_replicate hr with rfl
    simp [ofDim]

lemma eq_mk_ofFun {A : Matrix} (h : A.Perfect) (g : ℕ → ℕ → ℝ)
    (hent : ∀ i j, 1 ≤ i → i ≤ A.m → 1 ≤ j → j ≤ A.n → A.entry i j = g i j) :
    A = ⟨A.m, A.n, ofFun A.m A.n g⟩ := by
  obtain ⟨m, n, v⟩ := A
  dsimp only at h hent ⊢
  congr 1
  apply List.ext_getElem?
  intro k
  by_cases hk : k < m
  · have hrow := perfect_row h (k := k) hk
    simp only at hrow
    rw [hrow.1]
    simp only [ofFun, List.getElem?_map, List.getElem?_range hk,
      Option.map_some']
    congr 1
    apply List.ext_getElem?
    intro l
    by_cases hl : l < n
    · have hcl : l < (v.getD k []).length := by rw [hrow.2]; exact hl
      rw [List.getElem?_eq_getElem hcl]
      rw [List.getElem?_map, List.getElem?_range hl, Option.map_some']
      have he := hent (k + 1) (l + 1) (by omega) (by omega) (by omega) (by omega)
      simp only [entry, Nat.add_sub_cancel] at he
      rw [List.getD_eq_getElem _ 0 hcl] at he
      rw [he]
    · rw [List.getElem?_eq_none (show (v.getD k []).length ≤ l by rw [hrow.2]; omega),
        List.getElem?_eq_none (by simp only [List.length_map, List.length_range]; omega)]
  · rw [List.getElem?_eq_none (show v.length ≤ k by
        have hv := h.1; dsimp only at hv; omega),
      List.getElem?_eq_none (by
        simp only [ofFun, List.length_map, List.length_range]; omega)]

lemma foldl_setPure (w : ℕ → ℕ → ℝ) (ps : List (ℕ × ℕ)) :
    ∀ a : Matrix, a.Perfect →
      (∀ p ∈ ps, 1 ≤ p.1 ∧ p.1 ≤ a.m ∧ 1 ≤ p.2 ∧ p.2 ≤ a.n) →
      a.m < U32 → a.n < U32 →
      (ps.foldl (fun b ij => b.setPure ij.1 ij.2 (w ij.1 ij.2)) a).m = a.m ∧
      (ps.foldl (fun b ij => b.setPure ij.1 ij.2 (w ij.1 ij.2)) a).n = a.n ∧
      (ps.foldl (fun b ij => b.setPure ij.1 ij.2 (w ij.1 ij.2)) a).Perfect ∧
      ∀ i j, 1 ≤ i → 1 ≤ j →
        (ps.foldl (fun b ij => b.setPure ij.1 ij.2 (w ij.1 ij.2)) a).entry i j =
          if (i, j) ∈ ps then w i j else a.entry i j := by
  induction ps with
  | nil =>
    intro a ha _ _ _
    refine ⟨rfl, rfl, ha, ?_⟩
    intro i j _ _
    simp
  | cons p ps ih =>
    intro a ha hin hm hn
    obtain ⟨p1, p2⟩ := p
    have hpb := hin (p1, p2) (List.mem_cons_self _ _)
    dsimp only at hpb
    obtain ⟨hp1, hp2, hp3, hp4⟩ := hpb
    have hp1U : p1 < U32 := by omega
    have hp2U : p2 < U32 := by omega
    have hui : uSub1 p1 < a.m := by rw [uSub1_of_pos p1 hp1 hp1U]; omega
    have ha2P : (a.setPure p1 p2 (w p1 p2)).Perfect := setPure_perfect ha _ hui
    have hin2 : ∀ q ∈ ps, 1 ≤ q.1 ∧ q.1 ≤ (a.setPure p1 p2 (w p1 p2)).m ∧
        1 ≤ q.2 ∧ q.2 ≤ (a.setPure p1 p2 (w p1 p2)).n := by
      intro q hq
      exact hin q (List.mem_cons_of_mem _ hq)
    have IH := ih (a.setPure p1 p2 (w p1 p2)) ha2P hin2 hm hn
    rw [List.foldl_cons]
    refine ⟨IH.1, IH.2.1, IH.2.2.1, ?_⟩
    intro i j hi hj
    rw [IH.2.2.2 i j hi hj]
    by_cases hmem : (i, j) ∈ ps
    · rw [if_pos hmem, if_pos (List.mem_cons_of_mem _ hmem)]
    · rw [if_neg hmem]
      by_cases hp : i = p1 ∧ j = p2
      · obtain ⟨rfl, rfl⟩ := hp
        rw [if_pos (List.mem_cons_self _ _)]
        exact entry_setPure_self ha _ hp1 hp2 hp3 hp4 hp1U hp2U
      · have hnotc : (i, j) ∉ (p1, p2) :: ps := by
          intro hc
          rcases List.mem_cons.mp hc with hEq | hc2
          · exact hp ⟨congrArg Prod.fst hEq, congrArg Prod.snd hEq⟩
          · exact hmem hc2
        rw [if_neg hnotc]
        exact entry_setPure_ne _ hp1 hp1U hp3 hp2U hi hj hp

lemma foldl_setPureT (w : ℕ → ℕ → ℝ) (ps : List (ℕ × ℕ)) :
    ∀ a : Matrix, a.Perfect →
      (∀ p ∈ ps, 1 ≤ p.2 ∧ p.2 ≤ a.m ∧ 1 ≤ p.1 ∧ p.1 ≤ a.n) →
      a.m < U32 → a.n < U32 →
      (ps.foldl (fun b ij => b.setPure ij.2 ij.1 (w ij.1 ij.2)) a).m = a.m ∧
      (ps.foldl (fun b ij => b.setPure ij.2 ij.1 (w ij.1 ij.2)) a).n = a.n ∧
      (ps.foldl (fun b ij => b.setPure ij.2 ij.1 (w ij.1 ij.2)) a).Perfect ∧
      ∀ i j, 1 ≤ i → 1 ≤ j →
        (ps.foldl (fun b ij => b.setPure ij.2 ij.1 (w ij.1 ij.2)) a).entry i j =
          if (j, i) ∈ ps then w j i else a.entry i j := by
  induction ps with
  | nil =>
    intro a ha _ _ _
    refine ⟨rfl, rfl, ha, ?_⟩
    intro i j _ _
    simp
  | cons p ps ih =>
    intro a ha hin hm hn
    obtain ⟨p1, p2⟩ := p
    have hpb := hin (p1, p2) (List.mem_cons_self _ _)
    dsimp only at hpb
    obtain ⟨hp1, hp2, hp3, hp4⟩ := hpb
    have hp1U : p2 < U32 := by omega
    have hp2U : p1 < U32 := by omega
    have hui : uSub1 p2 < a.m := by rw [uSub1_of_pos p2 hp1 hp1U]; omega
    have ha2P : (a.setPure p2 p1 (w p1 p2)).Perfect := setPure_perfect ha _ hui
    have hin2 : ∀ q ∈ ps, 1 ≤ q.2 ∧ q.2 ≤ (a.setPure p2 p1 (w p1 p2)).m ∧
        1 ≤ q.1 ∧ q.1 ≤ (a.setPure p2 p1 (w p1 p2)).n := by
      intro q hq
      exact hin q (List.mem_cons_of_mem _ hq)
    have IH := ih (a.setPure p2 p1 (w p1 p2)) ha2P hin2 hm hn
    rw [List.foldl_cons]
    refine ⟨IH.1, IH.2.1, IH.2.2.1, ?_⟩
    intro i j hi hj
    rw [IH.2.2.2 i j hi hj]
    by_cases hmem : (j, i) ∈ ps
    · rw [if_pos hmem, if_pos (List.mem_cons_of_mem _ hmem)]
    · rw [if_neg hmem]
      by_cases hp : i = p2 ∧ j = p1
      · obtain ⟨rfl, rfl⟩ := hp
        rw [if_pos (List.mem_cons_self _ _)]
        exact entry_setPure_self ha _ hp1 hp2 hp3 hp4 hp1U hp2U
      · have hnotc : (j, i) ∉ (p1, p2) :: ps := by
          intro hc
          rcases List.mem_cons.mp hc with hEq | hc2
          · exact hp ⟨congrArg Prod.snd hEq, congrArg Prod.fst hEq⟩
          · exact hmem hc2
        rw [if_neg hnotc]
        exact entry_setPure_ne _ hp1 hp1U hp3 hp2U hi hj hp

end Matrix

lemma foldl_add_sum (h : ℕ → ℝ) (N : ℕ) :
    (List.range N).foldl (fun s k => s + h k) 0 = ∑ k ∈ Finset.range N, h k := by
  induction N with
  | zero => simp
  | succ N ih =>
    rw [List.range_succ, List.foldl_append, ih, Finset.sum_range_succ,
      List.foldl_cons, List.foldl_nil]

namespace Matrix

lemma set_ok_inv {A B : Matrix} (hA : A.Perfect) {i j : ℕ} {x : ℝ}
    (hset : A.set i j x = .ok B) :
    B.Perfect ∧ B.m = A.m ∧ B.n = A.n := by
  rcases hr : A.v[uSub1 i]? with _ | row
  · simp only [set, hr] at hset
    cases hset
  · by_cases hc : uSub1 j < row.length
    · simp only [set, hr, if_pos hc] at hset
      cases hset
      have hrowm : row ∈ A.v := row_mem_of_getElem hr
      refine ⟨⟨?_, ?_⟩, rfl, rfl⟩
      · simpa [List.length_set] using hA.1
      · intro r hrm
        rcases List.mem_or_eq_of_mem_set hrm with hmem | rfl
        · exact hA.2 r hmem
        · rw [List.length_set]
          exact hA.2 row hrowm
    · simp only [set, hr, if_neg hc] at hset
      cases hset

lemma set_err_kind {A : Matrix} {i j : ℕ} {x : ℝ} {e : MatrixError}
    (h : A.set i j x = .error e) : e = .outOfRange := by
  rcases set_kind (A := A) (i := i) (j := j) (x := x) with ⟨B, hB⟩ | herr
  · rw [hB] at h
    cases h
  · rw [herr] at h
    cases h
    rfl

lemma get_err_kind {A : Matrix} {i j : ℕ} {e : MatrixError}
    (h : A.get i j = .error e) : e = .outOfRange := by
  rcases get_kind (A := A) (i := i) (j := j) with ⟨y, hy⟩ | herr
  · rw [hy] at h
    cases h
  · rw [herr] at h
    cases h
    rfl

lemma build_ok {m n : ℕ} (hm : m < U32) (hn : n < U32)
    {f : ℕ → ℕ → Except MatrixError ℝ} (g : ℕ → ℕ → ℝ)
    (hf : ∀ i j, 1 ≤ i → i ≤ m → 1 ≤ j → j ≤ n → f i j = .ok (g i j)) :
    build m n f = .ok ⟨m, n, ofFun m n g⟩ := by
  have h0 : (ofDim m n (0 : ℝ)).Perfect := ofDim_perfect m n 0
  have hstep : ∀ (a2 : Matrix) (b : ℕ × ℕ),
      (a2.Perfect ∧ a2.m = m ∧ a2.n = n) → b ∈ loopIdx m n →
      (match f b.1 b.2 with
        | .error e => .error e
        | .ok val => a2.set b.1 b.2 val) =
        Except.ok (a2.setPure b.1 b.2 (g b.1 b.2)) := by
    rintro a2 ⟨b1, b2⟩ ⟨hP, hm2, hn2⟩ hb
    obtain ⟨h1, h2, h3, h4⟩ := mem_loopIdx.mp hb
    dsimp only at h1 h2 h3 h4 ⊢
    rw [hf b1 b2 h1 h2 h3 h4]
    have hb1 : uSub1 b1 < a2.v.length := by
      rw [hP.1, hm2, uSub1_of_pos b1 h1 (by omega)]
      omega
    have hb2 : uSub1 b2 < (a2.v.getD (uSub1 b1) []).length := by
      have hrow := perfect_row hP (show uSub1 b1 < a2.m by rw [← hP.1]; exact hb1)
      rw [hrow.2, hn2, uSub1_of_pos b2 h3 (by omega)]
      omega
    exact set_eq_ok hb1 hb2
  have hinv : ∀ (a2 : Matrix) (b : ℕ × ℕ),
      (a2.Perfect ∧ a2.m = m ∧ a2.n = n) → b ∈ loopIdx m n →
      ((a2.setPure b.1 b.2 (g b.1 b.2)).Perfect ∧
        (a2.setPure b.1 b.2 (g b.1 b.2)).m = m ∧
        (a2.setPure b.1 b.2 (g b.1 b.2)).n = n) := by
    rintro a2 ⟨b1, b2⟩ ⟨hP, hm2, hn2⟩ hb
    obtain ⟨h1, h2, h3, h4⟩ := mem_loopIdx.mp hb
    dsimp only at h1 h2 h3 h4 ⊢
    have hui : uSub1 b1 < a2.m := by
      rw [hm2, uSub1_of_pos b1 h1 (by omega)]
      omega
    exact ⟨setPure_perfect hP _ hui, hm2, hn2⟩
  have hfold := eFold_ok
    (fun a ij =>
      match f ij.1 ij.2 with
      | .error e => .error e
      | .ok val => a.set ij.1 ij.2 val)
    (fun a ij => a.setPure ij.1 ij.2 (g ij.1 ij.2))
    (fun a => a.Perfect ∧ a.m = m ∧ a.n = n)
    (loopIdx m n) (ofDim m n 0) hstep hinv ⟨h0, rfl, rfl⟩
  rw [build, hfold.1]
  have hbounds : ∀ p ∈ loopIdx m n,
      1 ≤ p.1 ∧ p.1 ≤ (ofDim m n (0 : ℝ)).m ∧
      1 ≤ p.2 ∧ p.2 ≤ (ofDim m n (0 : ℝ)).n :=
    fun p hp => mem_loopIdx.mp hp
  have hch := foldl_setPure g (loopIdx m n) (ofDim m n 0) h0 hbounds hm hn
  congr 1
  have hent : ∀ i j, 1 ≤ i →
      i ≤ (List.foldl (fun b ij => b.setPure ij.1 ij.2 (g ij.1 ij.2))
        (ofDim m n 0) (loopIdx m n)).m → 1 ≤ j →
      j ≤ (List.foldl (fun b ij => b.setPure ij.1 ij.2 (g ij.1 ij.2))
        (ofDim m n 0) (loopIdx m n)).n →
      (List.foldl (fun b ij => b.setPure ij.1 ij.2 (g ij.1 ij.2))
        (ofDim m n 0) (loopIdx m n)).entry i j = g i j := by
    intro i j hi1 hi2 hj1 hj2
    rw [hch.1] at hi2
    rw [hch.2.1] at hj2
    rw [hch.2.2.2 i j hi1 hj1,
      if_pos (mem_loopIdx.mpr ⟨hi1, hi2, hj1, hj2⟩)]
  have := eq_mk_ofFun hch.2.2.1 g hent
  rw [this, hch.1, hch.2.1]
  rfl

lemma build_perfect {m n : ℕ} {f : ℕ → ℕ → Except MatrixError ℝ} {M : Matrix}
    (h : build m n f = .ok M) : M.Perfect ∧ M.m = m ∧ M.n = n := by
  refine eFold_inv _ (fun a => a.Perfect ∧ a.m = m ∧ a.n = n) ?_
    (loopIdx m n) (ofDim m n 0) M ⟨ofDim_perfect m n 0, rfl, rfl⟩ h
  intro a b a2 ha hs
  rcases hfb : f b.1 b.2 with e | val
  · simp only [hfb] at hs
    cases hs
  · simp only [hfb] at hs
    obtain ⟨hP, hm2, hn2⟩ := ha
    obtain ⟨hP2, hm3, hn3⟩ := set_ok_inv hP hs
    exact ⟨hP2, by omega, by omega⟩

lemma build_isOk_iff {m n : ℕ} {f : ℕ → ℕ → Except MatrixError ℝ}
    (hm : m < U32) (hn : n < U32) :
    (∃ M, build m n f = .ok M) ↔
      ∀ i j, 1 ≤ i → i ≤ m → 1 ≤ j → j ≤ n → ∃ y, f i j = .ok y := by
  have hiff := eFold_isOk_iff
    (fun a ij =>
      match f ij.1 ij.2 with
      | .error e => .error e
      | .ok val => a.set ij.1 ij.2 val)
    (fun a => a.Perfect ∧ a.m = m ∧ a.n = n)
    (fun ij => ∃ y, f ij.1 ij.2 = .ok y)
    (loopIdx m n) (ofDim m n 0) ?_ ?_ ⟨ofDim_perfect m n 0, rfl, rfl⟩
  · rw [build, hiff]
    constructor
    · intro hall i j h1 h2 h3 h4
      exact hall (i, j) (mem_loopIdx.mpr ⟨h1, h2, h3, h4⟩)
    · intro hall b hb
      obtain ⟨h1, h2, h3, h4⟩ := mem_loopIdx.mp hb
      exact hall b.1 b.2 h1 h2 h3 h4
  · rintro a2 ⟨b1, b2⟩ ⟨hP, hm2, hn2⟩ hb
    obtain ⟨h1, h2, h3, h4⟩ := mem_loopIdx.mp hb
    dsimp only at h1 h2 h3 h4 ⊢
    constructor
    · rintro ⟨a3, ha3⟩
      rcases hfb : f b1 b2 with e | val
      · simp only [hfb] at ha3
        cases ha3
      · exact ⟨val, rfl⟩
    · rintro ⟨y, hy⟩
      rw [hy]
      refine (set_isOk_iff hP).mpr ⟨?_, ?_⟩
      · rw [hm2, uSub1_of_pos b1 h1 (by omega)]
        omega
      · rw [hn2, uSub1_of_pos b2 h3 (by omega)]
        omega
  · rintro a2 b a3 ⟨hP, hm2, hn2⟩ hs
    rcases hfb : f b.1 b.2 with e | val
    · simp only [hfb] at hs
      cases hs
    · simp only [hfb] at hs
      obtain ⟨hP2, hm3, hn3⟩ := set_ok_inv hP hs
      exact ⟨hP2, by omega, by omega⟩

lemma build_err_kind {m n : ℕ} {f : ℕ → ℕ → Except MatrixError ℝ}
    {e : MatrixError}
    (hf : ∀ i j e2, f i j = .error e2 → e2 = .outOfRange)
    (h : build m n f = .error e) : e = .outOfRange := by
  refine eFold_err_kind _ ?_ (loopIdx m n) (ofDim m n 0) e h
  intro a b e2 hs
  rcases hfb : f b.1 b.2 with e3 | val
  · simp only [hfb] at hs
    cases hs
    exact hf b.1 b.2 _ hfb
  · simp only [hfb] at hs
    exact set_err_kind hs

lemma mulScalar_ok {A : Matrix} (hA : A.Perfect)
    (hm : A.m < U32) (hn : A.n < U32) (s : ℝ) :
    A.mulScalar s = .ok ⟨A.m, A.n, ofFun A.m A.n (fun i j => s * A.entry i j)⟩ := by
  refine build_ok hm hn _ ?_
  intro i j h1 h2 h3 h4
  rw [get_ok hA h1 h2 h3 h4 (by omega) (by omega)]

lemma scalarMul_ok {A : Matrix} (hA : A.Perfect)
    (hm : A.m < U32) (hn : A.n < U32) (s : ℝ) :
    scalarMul s A = .ok ⟨A.m, A.n, ofFun A.m A.n (fun i j => s * A.entry i j)⟩ :=
  mulScalar_ok hA hm hn s

lemma divScalar_ok {A : Matrix} (hA : A.Perfect)
    (hm : A.m < U32) (hn : A.n < U32) (s : ℝ) :
    A.divScalar s = .ok ⟨A.m, A.n, ofFun A.m A.n (fun i j => s / A.entry i j)⟩ := by
  refine build_ok hm hn _ ?_
  intro i j h1 h2 h3 h4
  rw [get_ok hA h1 h2 h3 h4 (by omega) (by omega)]

lemma add_ok {A B : Matrix} (hA : A.Perfect) (hB : B.Perfect)
    (hm : A.m < U32) (hn : A.n < U32) (hmB : A.m ≤ B.m) (hnB : A.n ≤ B.n) :
    A.add B = .ok ⟨A.m, A.n, ofFun A.m A.n
      (fun i j => A.entry i j + B.entry i j)⟩ := by
  refine build_ok hm hn _ ?_
  intro i j h1 h2 h3 h4
  rw [get_ok hA h1 h2 h3 h4 (by omega) (by omega),
    get_ok hB h1 (by omega) h3 (by omega) (by omega) (by omega)]

lemma sub_ok {A B : Matrix} (hA : A.Perfect) (hB : B.Perfect)
    (hm : A.m < U32) (hn : A.n < U32) (hmB : A.m ≤ B.m) (hnB : A.n ≤ B.n) :
    A.sub B = .ok ⟨A.m, A.n, ofFun A.m A.n
      (fun i j => A.entry i j - B.entry i j)⟩ := by
  refine build_ok hm hn _ ?_
  intro i j h1 h2 h3 h4
  rw [get_ok hA h1 h2 h3 h4 (by omega) (by omega),
    get_ok hB h1 (by omega) h3 (by omega) (by omega) (by omega)]

lemma add_not_ok {A B : Matrix} (hA : A.Perfect) (hB : B.Perfect)
    (hm : A.m < U32) (hn : A.n < U32) (h1m : 1 ≤ A.m) (h1n : 1 ≤ A.n)
    (hlt : B.m < A.m ∨ B.n < A.n) :
    ¬∃ M, A.add B = .ok M := by
  rw [add]
  intro hok
  have hall := (build_isOk_iff hm hn).mp hok
  rcases hlt with hbm | hbn
  · obtain ⟨y, hy⟩ := hall (B.m + 1) 1 (by omega) (by omega) (by omega) h1n
    rcases hg : A.get (B.m + 1) 1 with e | xv
    · simp only [hg] at hy
      cases hy
    · rcases hg2 : B.get (B.m + 1) 1 with e | yv
      · simp only [hg, hg2] at hy
        cases hy
      · have hBok := (get_isOk_iff hB).mp ⟨yv, hg2⟩
        rw [uSub1_of_pos (B.m + 1) (by omega) (by omega)] at hBok
        omega
  · obtain ⟨y, hy⟩ := hall 1 (B.n + 1) (by omega) h1m (by omega) (by omega)
    rcases hg : A.get 1 (B.n + 1) with e | xv
    · simp only [hg] at hy
      cases hy
    · rcases hg2 : B.get 1 (B.n + 1) with e | yv
      · simp only [hg, hg2] at hy
        cases hy
      · have hBok := (get_isOk_iff hB).mp ⟨yv, hg2⟩
        rw [uSub1_of_pos (B.n + 1) (by omega) (by omega)] at hBok
        omega

lemma sub_not_ok {A B : Matrix} (hA : A.Perfect) (hB : B.Perfect)
    (hm : A.m < U32) (hn : A.n < U32) (h1m : 1 ≤ A.m) (h1n : 1 ≤ A.n)
    (hlt : B.m < A.m ∨ B.n < A.n) :
    ¬∃ M, A.sub B = .ok M := by
  rw [sub]
  intro hok
  have hall := (build_isOk_iff hm hn).mp hok
  rcases hlt with hbm | hbn
  · obtain ⟨y, hy⟩ := hall (B.m + 1) 1 (by omega) (by omega) (by omega) h1n
    rcases hg : A.get (B.m + 1) 1 with e | xv
    · simp only [hg] at hy
      cases hy
    · rcases hg2 : B.get (B.m + 1) 1 with e | yv
      · simp only [hg, hg2] at hy
        cases hy
      · have hBok := (get_isOk_iff hB).mp ⟨yv, hg2⟩
        rw [uSub1_of_pos (B.m + 1) (by omega) (by omega)] at hBok
        omega
  · obtain ⟨y, hy⟩ := hall 1 (B.n + 1) (by omega) h1m (by omega) (by omega)
    rcases hg : A.get 1 (B.n + 1) with e | xv
    · simp only [hg] at hy
      cases hy
    · rcases hg2 : B.get 1 (B.n + 1) with e | yv
      · simp only [hg, hg2] at hy
        cases hy
      · have hBok := (get_isOk_iff hB).mp ⟨yv, hg2⟩
        rw [uSub1_of_pos (B.n + 1) (by omega) (by omega)] at hBok
        omega

lemma add_err {A B : Matrix} (hA : A.Perfect) (hB : B.Perfect)
    (hm : A.m < U32) (hn : A.n < U32) (h1m : 1 ≤ A.m) (h1n : 1 ≤ A.n)
    (hlt : B.m < A.m ∨ B.n < A.n) :
    A.add B = .error .outOfRange := by
  rcases h : A.add B with e | M
  · rw [add] at h
    have hkind : e = .outOfRange := by
      refine build_err_kind ?_ h
      intro i j e2 hf
      rcases hg : A.get i j with e3 | xv
      · simp only [hg] at hf
        cases hf
        exact get_err_kind hg
      · rcases hg2 : B.get i j with e3 | yv
        · simp only [hg, hg2] at hf
          cases hf
          exact get_err_kind hg2
        · simp only [hg, hg2] at hf
          cases hf
    rw [hkind]
  · exact absurd ⟨M, h⟩ (add_not_ok hA hB hm hn h1m h1n hlt)

lemma sub_err {A B : Matrix} (hA : A.Perfect) (hB : B.Perfect)
    (hm : A.m < U32) (hn : A.n < U32) (h1m : 1 ≤ A.m) (h1n : 1 ≤ A.n)
    (hlt : B.m < A.m ∨ B.n < A.n) :
    A.sub B = .error .outOfRange := by
  rcases h : A.sub B with e | M
  · rw [sub] at h
    have hkind : e = .outOfRange := by
      refine build_err_kind ?_ h
      intro i j e2 hf
      rcases hg : A.get i j with e3 | xv
      · simp only [hg] at hf
        cases hf
        exact get_err_kind hg
      · rcases hg2 : B.get i j with e3 | yv
        · simp only [hg, hg2] at hf
          cases hf
          exact get_err_kind hg2
        · simp only [hg, hg2] at hf
          cases hf
    rw [hkind]
  · exact absurd ⟨M, h⟩ (sub_not_ok hA hB hm hn h1m h1n hlt)

lemma transpose_ok {A : Matrix} (hA : A.Perfect)
    (hm : A.m < U32) (hn : A.n < U32) :
    A.transpose = .ok ⟨A.n, A.m, ofFun A.n A.m (fun i j => A.entry j i)⟩ := by
  have h0 : (ofDim A.n A.m (0 : ℝ)).Perfect := ofDim_perfect A.n A.m 0
  have hstep : ∀ (w : Matrix) (b : ℕ × ℕ),
      (w.Perfect ∧ w.m = A.n ∧ w.n = A.m) → b ∈ loopIdx A.m A.n →
      (match A.get b.1 b.2 with
        | .error e => .error e
        | .ok val => w.set b.2 b.1 val) =
        Except.ok (w.setPure b.2 b.1 (A.entry b.1 b.2)) := by
    rintro w ⟨b1, b2⟩ ⟨hP, hm2, hn2⟩ hb
    obtain ⟨h1, h2, h3, h4⟩ := mem_loopIdx.mp hb
    dsimp only at h1 h2 h3 h4 ⊢
    rw [get_ok hA h1 h2 h3 h4 (by omega) (by omega)]
    have hb1 : uSub1 b2 < w.v.length := by
      rw [hP.1, hm2, uSub1_of_pos b2 h3 (by omega)]
      omega
    have hb2 : uSub1 b1 < (w.v.getD (uSub1 b2) []).length := by
      have hrow := perfect_row hP (show uSub1 b2 < w.m by rw [← hP.1]; exact hb1)
      rw [hrow.2, hn2, uSub1_of_pos b1 h1 (by omega)]
      omega
    exact set_eq_ok hb1 hb2
  have hinv : ∀ (w : Matrix) (b : ℕ × ℕ),
      (w.Perfect ∧ w.m = A.n ∧ w.n = A.m) → b ∈ loopIdx A.m A.n →
      ((w.setPure b.2 b.1 (A.entry b.1 b.2)).Perfect ∧
        (w.setPure b.2 b.1 (A.entry b.1 b.2)).m = A.n ∧
        (w.setPure b.2 b.1 (A.entry b.1 b.2)).n = A.m) := by
    rintro w ⟨b1, b2⟩ ⟨hP, hm2, hn2⟩ hb
    obtain ⟨h1, h2, h3, h4⟩ := mem_loopIdx.mp hb
    dsimp only at h1 h2 h3 h4 ⊢
    have hui : uSub1 b2 < w.m := by
      rw [hm2, uSub1_of_pos b2 h3 (by omega)]
      omega
    exact ⟨setPure_perfect hP _ hui, hm2, hn2⟩
  have hfold := eFold_ok
    (fun w ij =>
      match A.get ij.1 ij.2 with
      | .error e => .error e
      | .ok val => w.set ij.2 ij.1 val)
    (fun w ij => w.setPure ij.2 ij.1 (A.entry ij.1 ij.2))
    (fun w => w.Perfect ∧ w.m = A.n ∧ w.n = A.m)
    (loopIdx A.m A.n) (ofDim A.n A.m 0) hstep hinv ⟨h0, rfl, rfl⟩
  rw [transpose, hfold.1]
  have hbounds : ∀ p ∈ loopIdx A.m A.n,
      1 ≤ p.2 ∧ p.2 ≤ (ofDim A.n A.m (0 : ℝ)).m ∧
      1 ≤ p.1 ∧ p.1 ≤ (ofDim A.n A.m (0 : ℝ)).n := by
    intro p hp
    obtain ⟨h1, h2, h3, h4⟩ := mem_loopIdx.mp hp
    exact ⟨h3, h4, h1, h2⟩
  have hch := foldl_setPureT (fun i j => A.entry i j) (loopIdx A.m A.n)
    (ofDim A.n A.m 0) h0 hbounds hn hm
  congr 1
  have hent : ∀ i j, 1 ≤ i →
      i ≤ (List.foldl (fun b ij => b.setPure ij.2 ij.1 (A.entry ij.1 ij.2))
        (ofDim A.n A.m 0) (loopIdx A.m A.n)).m → 1 ≤ j →
      j ≤ (List.foldl (fun b ij => b.setPure ij.2 ij.1 (A.entry ij.1 ij.2))
        (ofDim A.n A.m 0) (loopIdx A.m A.n)).n →
      (List.foldl (fun b ij => b.setPure ij.2 ij.1 (A.entry ij.1 ij.2))
        (ofDim A.n A.m 0) (loopIdx A.m A.n)).entry i j = A.entry j i := by
    intro i j hi1 hi2 hj1 hj2
    rw [hch.1] at hi2
    rw [hch.2.1] at hj2
    rw [hch.2.2.2 i j hi1 hj1,
      if_pos (mem_loopIdx.mpr ⟨hj1, hj2, hi1, hi2⟩)]
  have := eq_mk_ofFun hch.2.2.1 (fun i j => A.entry j i) hent
  rw [this, hch.1, hch.2.1]
  rfl

lemma t_ok {A : Matrix} (hA : A.Perfect) (hm : A.m < U32) (hn : A.n < U32) :
    A.t = .ok ⟨A.n, A.m, ofFun A.n A.m (fun i j => A.entry j i)⟩ :=
  transpose_ok hA hm hn

lemma dotIJ_ok {A B : Matrix} (hA : A.Perfect) (hB : B.Perfect) {i j : ℕ}
    (hi1 : 1 ≤ i) (hi2 : i ≤ A.m) (hj1 : 1 ≤ j) (hj2 : j ≤ B.n)
    (hiU : i < U32) (hjU : j < U32) (hn : A.n < U32) (hnm : A.n = B.m) :
    A.dotIJ B i j =
      .ok (∑ k ∈ Finset.range A.n, A.entry i (k + 1) * B.entry (k + 1) j) := by
  have hstep : ∀ (s : ℝ) (k : ℕ), True → k ∈ List.range A.n →
      (match A.get i (k + 1) with
        | .error e => .error e
        | .ok xv =>
          match B.get (k + 1) j with
          | .error e => .error e
          | .ok yv => .ok (s + xv * yv)) =
        Except.ok (s + A.entry i (k + 1) * B.entry (k + 1) j) := by
    intro s k _ hk
    have hkn : k < A.n := List.mem_range.mp hk
    rw [get_ok hA hi1 hi2 (by omega) (by omega) hiU (by omega),
      get_ok hB (by omega) (by omega) hj1 hj2 (by omega) hjU]
  have hfold := eFold_ok
    (fun s k =>
      match A.get i (k + 1) with
      | .error e => .error e
      | .ok xv =>
        match B.get (k + 1) j with
        | .error e => .error e
        | .ok yv => .ok (s + xv * yv))
    (fun s k => s + A.entry i (k + 1) * B.entry (k + 1) j)
    (fun _ => True)
    (List.range A.n) 0 hstep (fun _ _ _ _ => trivial) trivial
  rw [dotIJ, hfold.1, foldl_add_sum (fun k => A.entry i (k + 1) * B.entry (k + 1) j) A.n]

lemma mulMat_ok {A B : Matrix} (hA : A.Perfect) (hB : B.Perfect)
    (hmA : A.m < U32) (hnA : A.n < U32) (hnB : B.n < U32) (hguard : A.n = B.m) :
    A.mulMat B = .ok ⟨A.m, B.n, ofFun A.m B.n
      (fun i j => ∑ k ∈ Finset.range A.n, A.entry i (k + 1) * B.entry (k + 1) j)⟩ := by
  rw [mulMat, if_neg (fun hc => hc hguard)]
  refine build_ok hmA hnB _ ?_
  intro i j h1 h2 h3 h4
  exact dotIJ_ok hA hB h1 h2 h3 h4 (by omega) (by omega) hnA hguard

lemma x_ok {A : Matrix} (hA : A.Perfect) (hm : A.m = 1) (hn : A.n = 1) :
    A.x = .ok (A.entry 1 1) := by
  rw [x, if_pos ⟨hm, hn⟩]
  exact get_ok hA (by omega) (by omega) (by omega) (by omega)
    (by norm_num [U32]) (by norm_num [U32])

lemma x_err {A : Matrix} (h : ¬(A.m = 1 ∧ A.n = 1)) :
    A.x = .error (.invalidArgument ("Not a 1x1 Matrix")) := by
  rw [x, if_neg h]

lemma x1_ok {A : Matrix} (hA : A.Perfect) (hm : A.m = 2) (hn : A.n = 1) :
    A.x1 = .ok (A.entry 1 1) := by
  rw [x1, if_pos ⟨hm, hn⟩]
  exact get_ok hA (by omega) (by omega) (by omega) (by omega)
    (by norm_num [U32]) (by norm_num [U32])

lemma x1_err {A : Matrix} (h : ¬(A.m = 2 ∧ A.n = 1)) :
    A.x1 = .error (.invalidArgument ("Not a 2x1 column vector")) := by
  rw [x1, if_neg h]

lemma x2_ok {A : Matrix} (hA : A.Perfect) (hm : A.m = 2) (hn : A.n = 1) :
    A.x2 = .ok (A.entry 2 1) := by
  rw [x2, if_pos ⟨hm, hn⟩]
  exact get_ok hA (by omega) (by omega) (by omega) (by omega)
    (by norm_num [U32]) (by norm_num [U32])

lemma x2_err {A : Matrix} (h : ¬(A.m = 2 ∧ A.n = 1)) :
    A.x2 = .error (.invalidArgument ("Not a 2x1 column vector")) := by
  rw [x2, if_neg h]

lemma getLin_ok {A : Matrix} (hA : A.Perfect) {i : ℕ} (h1m : 1 ≤ A.m)
    (hi1 : 1 ≤ i) (hi2 : i ≤ A.m * A.n) (hiU : i < U32) :
    A.getLin i = .ok (A.entry ((i - 1) % A.m + 1) ((i - 1) / A.m + 1)) := by
  have hu : uSub1 i = i - 1 := uSub1_of_pos i hi1 hiU
  have hrm : (i - 1) % A.m < A.m := Nat.mod_lt _ (by omega)
  have hx : i - 1 < A.m * A.n := by omega
  have hcn : (i - 1) / A.m < A.n :=
    (Nat.div_lt_iff_lt_mul (by omega)).mpr (Nat.mul_comm A.m A.n ▸ hx)
  have hrow := perfect_row hA hrm
  have hcol : (i - 1) / A.m < (A.v.getD ((i - 1) % A.m) []).length := by
    rw [hrow.2]
    exact hcn
  simp only [getLin, hu, hrow.1, List.getElem?_eq_getElem hcol]
  rw [entry]
  simp only [Nat.add_sub_cancel]
  rw [List.getD_eq_getElem _ _ hcol]

lemma getLin_err {A : Matrix} (hA : A.Perfect) {i : ℕ} (h1m : 1 ≤ A.m)
    (hmn : A.m * A.n < U32) (hiU : i < U32)
    (hout : ¬(1 ≤ i ∧ i ≤ A.m * A.n)) :
    A.getLin i = .error .outOfRange := by
  have hrm : uSub1 i % A.m < A.m := Nat.mod_lt _ (by omega)
  have hrow := perfect_row hA hrm
  have hcol : (A.v.getD (uSub1 i % A.m) []).length ≤ uSub1 i / A.m := by
    rw [hrow.2]
    rcases Nat.eq_zero_or_pos i with rfl | hi1
    · rw [uSub1_zero, Nat.le_div_iff_mul_le (by omega)]
      have hc : A.n * A.m = A.m * A.n := Nat.mul_comm _ _
      omega
    · have hgt : A.m * A.n < i := by omega
      rw [uSub1_of_pos i hi1 hiU, Nat.le_div_iff_mul_le (by omega)]
      have hc : A.n * A.m = A.m * A.n := Nat.mul_comm _ _
      omega
  simp only [getLin, hrow.1, List.getElem?_eq_none hcol]

lemma setLin_ok {A : Matrix} (hA : A.Perfect) {i : ℕ} (x : ℝ) (h1m : 1 ≤ A.m)
    (hmU : A.m < U32) (hnU : A.n < U32)
    (hi1 : 1 ≤ i) (hi2 : i ≤ A.m * A.n) (hiU : i < U32) :
    A.setLin i x = .ok (A.setPure ((i - 1) % A.m + 1) ((i - 1) / A.m + 1) x) := by
  have hu : uSub1 i = i - 1 := uSub1_of_pos i hi1 hiU
  have hrm : (i - 1) % A.m < A.m := Nat.mod_lt _ (by omega)
  have hx : i - 1 < A.m * A.n := by omega
  have hcn : (i - 1) / A.m < A.n :=
    (Nat.div_lt_iff_lt_mul (by omega)).mpr (Nat.mul_comm A.m A.n ▸ hx)
  have hrow := perfect_row hA hrm
  have hcol : (i - 1) / A.m < (A.v.getD ((i - 1) % A.m) []).length := by
    rw [hrow.2]
    exact hcn
  have hur : uSub1 ((i - 1) % A.m + 1) = (i - 1) % A.m := uSub1_succ _ (by omega)
  have huc : uSub1 ((i - 1) / A.m + 1) = (i - 1) / A.m := uSub1_succ _ (by omega)
  simp only [setLin, hu, hrow.1, if_pos hcol, setPure, hur, huc]

lemma setLin_err {A : Matrix} (hA : A.Perfect) {i : ℕ} (x : ℝ) (h1m : 1 ≤ A.m)
    (hmn : A.m * A.n < U32) (hiU : i < U32)
    (hout : ¬(1 ≤ i ∧ i ≤ A.m * A.n)) :
    A.setLin i x = .error .outOfRange := by
  have hrm : uSub1 i % A.m < A.m := Nat.mod_lt _ (by omega)
  have hrow := perfect_row hA hrm
  have hcol : (A.v.getD (uSub1 i % A.m) []).length ≤ uSub1 i / A.m := by
    rw [hrow.2]
    rcases Nat.eq_zero_or_pos i with rfl | hi1
    · rw [uSub1_zero, Nat.le_div_iff_mul_le (by omega)]
      have hc : A.n * A.m = A.m * A.n := Nat.mul_comm _ _
      omega
    · have hgt : A.m * A.n < i := by omega
      rw [uSub1_of_pos i hi1 hiU, Nat.le_div_iff_mul_le (by omega)]
      have hc : A.n * A.m = A.m * A.n := Nat.mul_comm _ _
      omega
  simp only [setLin, hrow.1, if_neg (by omega : ¬uSub1 i / A.m < (A.v.getD (uSub1 i % A.m) []).length)]

lemma modSumSq_ok {A : Matrix} (hA : A.Perfect) (h1m : 1 ≤ A.m)
    (hmn : A.m * A.n < U32) :
    A.modSumSq = .ok (∑ k ∈ Finset.range (A.m * A.n),
      A.entry (k % A.m + 1) (k / A.m + 1) * A.entry (k % A.m + 1) (k / A.m + 1)) := by
  have hstep : ∀ (s : ℝ) (k : ℕ), True → k ∈ List.range A.length →
      (match A.getLin (k + 1) with
        | .error e => .error e
        | .ok x => .ok (s + x * x)) =
        Except.ok (s + A.entry (k % A.m + 1) (k / A.m + 1) *
          A.entry (k % A.m + 1) (k / A.m + 1)) := by
    intro s k _ hk
    have hkn : k < A.length := List.mem_range.mp hk
    rw [length] at hkn
    rw [getLin_ok hA h1m (by omega) (by omega) (by omega)]
    simp only [Nat.add_sub_cancel]
  have hfold := eFold_ok
    (fun s k =>
      match A.getLin (k + 1) with
      | .error e => .error e
      | .ok x => .ok (s + x * x))
    (fun s k => s + A.entry (k % A.m + 1) (k / A.m + 1) *
      A.entry (k % A.m + 1) (k / A.m + 1))
    (fun _ => True)
    (List.range A.length) 0 hstep (fun _ _ _ _ => trivial) trivial
  rw [modSumSq, hfold.1, length,
    foldl_add_sum (fun k => A.entry (k % A.m + 1) (k / A.m + 1) *
      A.entry (k % A.m + 1) (k / A.m + 1)) (A.m * A.n)]

lemma mod_ok {A : Matrix} (hA : A.Perfect) (h1m : 1 ≤ A.m)
    (hmn : A.m * A.n < U32) :
    A.mod = .ok (Real.sqrt (∑ k ∈ Finset.range (A.m * A.n),
      A.entry (k % A.m + 1) (k / A.m + 1) * A.entry (k % A.m + 1) (k / A.m + 1))) := by
  simp only [mod, modSumSq_ok hA h1m hmn]

end Matrix

lemma sum_range_mul_divmod (m n : ℕ) (h1m : 1 ≤ m) (F : ℕ → ℕ → ℝ) :
    ∑ k ∈ Finset.range (m * n), F (k % m) (k / m) =
      ∑ i ∈ Finset.range m, ∑ j ∈ Finset.range n, F i j := by
  rw [← Finset.sum_product']
  refine Finset.sum_nbij' (fun k => (k % m, k / m)) (fun p => p.1 + m * p.2)
    ?_ ?_ ?_ ?_ ?_
  · intro k hk
    have hkm : k < m * n := Finset.mem_range.mp hk
    refine Finset.mem_product.mpr ⟨Finset.mem_range.mpr (Nat.mod_lt _ (by omega)),
      Finset.mem_range.mpr ?_⟩
    exact (Nat.div_lt_iff_lt_mul (by omega)).mpr (Nat.mul_comm m n ▸ hkm)
  · rintro ⟨i, j⟩ hp
    obtain ⟨hi, hj⟩ := Finset.mem_product.mp hp
    rw [Finset.mem_range] at hi hj
    refine Finset.mem_range.mpr ?_
    dsimp only
    have h1 : m * (j + 1) = m * j + m := Nat.mul_succ m j
    have h2 : m * (j + 1) ≤ m * n := Nat.mul_le_mul_left m (by omega)
    omega
  · intro k _
    dsimp only
    exact Nat.mod_add_div k m
  · rintro ⟨i, j⟩ hp
    obtain ⟨hi, hj⟩ := Finset.mem_product.mp hp
    rw [Finset.mem_range] at hi hj
    dsimp only
    have hmod : (i + m * j) % m = i := by
      rw [Nat.add_mul_mod_self_left, Nat.mod_eq_of_lt hi]
    have hdiv : (i + m * j) / m = j := by
      rw [Nat.add_mul_div_left _ _ (by omega : 0 < m), Nat.div_eq_of_lt hi]
      omega
    simp only [hmod, hdiv]
  · intro k _
    rfl

namespace Matrix

lemma ofFun_congr {m n : ℕ} {g g2 : ℕ → ℕ → ℝ}
    (h : ∀ i j, 1 ≤ i → i ≤ m → 1 ≤ j → j ≤ n → g i j = g2 i j) :
    ofFun m n g = ofFun m n g2 := by
  simp only [ofFun]
  apply List.map_congr_left
  intro i hi
  rw [List.mem_range] at hi
  apply List.map_congr_left
  intro j hj
  rw [List.mem_range] at hj
  exact h (i + 1) (j + 1) (by omega) (by omega) (by omega) (by omega)

end Matrix

lemma axpy_eq_ofFun (xv d : Matrix) (c : ℝ) :
    axpy xv d c =
      ⟨xv.m, xv.n, ofFun xv.m xv.n
        (fun i j => xv.entry i j + c * d.entry i j)⟩ := rfl

/-- A successful `x + c * d` for same-shaped well-formed matrices produces
exactly the elementwise trial point. -/
lemma scal_add_ok {xv d : Matrix} (c : ℝ)
    (hxP : xv.Perfect) (hdP : d.Perfect)
    (hxU1 : xv.m < U32) (hxU2 : xv.n < U32)
    (hdU1 : d.m < U32) (hdU2 : d.n < U32)
    (hm : xv.m = d.m) (hn : xv.n = d.n) :
    ∃ D, Matrix.scalarMul c d = .ok D ∧ xv.add D = .ok (axpy xv d c) := by
  refine ⟨⟨d.m, d.n, ofFun d.m d.n (fun i j => c * d.entry i j)⟩,
    Matrix.scalarMul_ok hdP hdU1 hdU2 c, ?_⟩
  have hDP : (⟨d.m, d.n, ofFun d.m d.n (fun i j => c * d.entry i j)⟩ :
      Matrix).Perfect := Matrix.ofFun_perfect d.m d.n _
  have hadd := Matrix.add_ok hxP hDP hxU1 hxU2
    (show xv.m ≤ d.m by omega) (show xv.n ≤ d.n by omega)
  rw [hadd, axpy_eq_ofFun]
  congr 2
  apply Matrix.ofFun_congr
  intro i j h1 h2 h3 h4
  congr 1
  exact Matrix.entry_ofFun _ h1 (by omega) h3 (by omega)

/-- A successful `(gradf x).t() * d` followed by `.x()` for well-formed
column vectors of equal length produces exactly the dot product. -/
lemma t_mul_x_ok {g d : Matrix}
    (hgP : g.Perfect) (hdP : d.Perfect)
    (hgU1 : g.m < U32) (hgU2 : g.n < U32) (hdU2 : d.n < U32)
    (hgn : g.n = 1) (hdn : d.n = 1) (hgm : g.m = d.m) :
    ∃ G P, g.t = .ok G ∧ G.mulMat d = .ok P ∧ P.x = .ok (colDot g d) := by
  have hG := Matrix.t_ok hgP hgU1 hgU2
  have hGP : (⟨g.n, g.m, ofFun g.n g.m (fun i j => g.entry j i)⟩ :
      Matrix).Perfect := Matrix.ofFun_perfect _ _ _
  have hP := Matrix.mulMat_ok
    (A := ⟨g.n, g.m, ofFun g.n g.m (fun i j => g.entry j i)⟩)
    (B := d) hGP hdP hgU2 hgU1 hdU2 hgm
  refine ⟨_, _, hG, hP, ?_⟩
  have hPperf := Matrix.ofFun_perfect
    ((⟨g.n, g.m, ofFun g.n g.m (fun i j => g.entry j i)⟩ : Matrix).m) d.n
    (fun i j => ∑ k ∈ Finset.range
      (⟨g.n, g.m, ofFun g.n g.m (fun i j => g.entry j i)⟩ : Matrix).n,
      (⟨g.n, g.m, ofFun g.n g.m (fun i j => g.entry j i)⟩ : Matrix).entry
        i (k + 1) * d.entry (k + 1) j)
  rw [Matrix.x_ok hPperf hgn hdn]
  congr 1
  dsimp only
  rw [Matrix.entry_ofFun _ (by omega) (show (1 : ℕ) ≤ g.n by omega)
    (by omega) (show (1 : ℕ) ≤ d.n by omega)]
  rw [colDot]
  apply Finset.sum_congr rfl
  intro k hk
  rw [Finset.mem_range] at hk
  congr 1
  exact Matrix.entry_ofFun _ (by omega) (show (1 : ℕ) ≤ g.n by omega)
    (by omega) (show k + 1 ≤ g.m by omega)

/-- For well-formed column vectors of matching length, the loop test of the
Armijo search evaluates without throwing, to exactly the sufficient-decrease
condition written in the specification. -/
lemma armijoTest_eq_condSpec (s beta sigma : ℝ) (f : Matrix → ℝ)
    (gradf : Matrix → Matrix) (xv d : Matrix)
    (hx : xv.WF) (hd : d.WF) (hg : (gradf xv).WF)
    (hxn : xv.n = 1) (hdn : d.n = 1) (hgn : (gradf xv).n = 1)
    (hxm : xv.m = d.m) (hgm : (gradf xv).m = d.m) (k : ℕ) :
    armijoTest s beta sigma f gradf xv d k =
      .ok (ArmijoCondSpec s beta sigma f gradf xv d k) := by
  obtain ⟨hxP, hxU1, hxU2, _⟩ := hx
  obtain ⟨hdP, hdU1, hdU2, _⟩ := hd
  obtain ⟨hgP, hgU1, hgU2, _⟩ := hg
  obtain ⟨D, hD, hT⟩ := scal_add_ok (s * beta ^ k) hxP hdP hxU1 hxU2 hdU1 hdU2
    hxm (by omega)
  obtain ⟨G, P, hG, hP, hXX⟩ := t_mul_x_ok hgP hdP hgU1 hgU2 hdU2 hgn hdn hgm
  simp only [armijoTest, hD, hT, hG, hP, hXX, ArmijoCondSpec]

/-- The control flow of the Armijo loop test does not depend on the exponent
`k`: if the test evaluates without throwing at one exponent, it does so at
every exponent (only the scalar `s·β^k` changes, and scalars never affect
which accesses are performed). -/
lemma armijoTest_ok_all {s beta sigma : ℝ} {f : Matrix → ℝ}
    {gradf : Matrix → Matrix} {xv d : Matrix}
    (hx : xv.WF) (hd : d.WF) (hg : (gradf xv).WF) {m : ℕ}
    (hm : ∃ q, armijoTest s beta sigma f gradf xv d m = .ok q) (k : ℕ) :
    ∃ q, armijoTest s beta sigma f gradf xv d k = .ok q := by
  obtain ⟨hxP, hxU1, hxU2, _⟩ := hx
  obtain ⟨hdP, hdU1, hdU2, _⟩ := hd
  obtain ⟨q, hq⟩ := hm
  have hDm := Matrix.scalarMul_ok hdP hdU1 hdU2 (s * beta ^ m)
  have hDk := Matrix.scalarMul_ok hdP hdU1 hdU2 (s * beta ^ k)
  simp only [armijoTest, hDm] at hq
  rcases hTm : xv.add ⟨d.m, d.n,
      ofFun d.m d.n (fun i j => s * beta ^ m * d.entry i j)⟩ with e | T
  · simp only [hTm] at hq
    cases hq
  · simp only [hTm] at hq
    have hTkOk : ∃ T2, xv.add ⟨d.m, d.n,
        ofFun d.m d.n (fun i j => s * beta ^ k * d.entry i j)⟩ = .ok T2 := by
      rw [Matrix.add] at hTm ⊢
      have hfwd := (Matrix.build_isOk_iff hxU1 hxU2).mp ⟨T, hTm⟩
      refine (Matrix.build_isOk_iff hxU1 hxU2).mpr ?_
      intro i j h1 h2 h3 h4
      obtain ⟨y, hy⟩ := hfwd i j h1 h2 h3 h4
      rcases hgx : xv.get i j with e2 | xval
      · simp only [hgx] at hy
        cases hy
      · rcases hgD : (⟨d.m, d.n,
            ofFun d.m d.n (fun i j => s * beta ^ m * d.entry i j)⟩ :
            Matrix).get i j with e2 | dval
        · simp only [hgx, hgD] at hy
          cases hy
        · have hbounds := (Matrix.get_isOk_iff
            (Matrix.ofFun_perfect d.m d.n _)).mp ⟨dval, hgD⟩
          obtain ⟨dk2, hdk2⟩ := (Matrix.get_isOk_iff
            (Matrix.ofFun_perfect d.m d.n
              (fun i j => s * beta ^ k * d.entry i j))).mpr hbounds
          exact ⟨xval + dk2, by simp only [hgx, hdk2]⟩
    obtain ⟨T2, hT2⟩ := hTkOk
    simp only [armijoTest, hDk, hT2]
    rcases hGg : (gradf xv).t with e | G
    · simp only [hGg] at hq
      cases hq
    · simp only [hGg] at hq ⊢
      rcases hPp : G.mulMat d with e | P
      · simp only [hPp] at hq
        cases hq
      · simp only [hPp] at hq ⊢
        rcases hXx : P.x with e | slope
        · simp only [hXx] at hq
          cases hq
        · simp only [hXx]
          exact ⟨_, rfl⟩

/-- When some exponent passes the loop test, the search halts at the least
passing exponent and `armijo_call` returns `s * beta ^ m` for that `m`. -/
lemma armijo_call_eq {s beta sigma : ℝ} {f : Matrix → ℝ}
    {gradf : Matrix → Matrix} {xv d : Matrix}
    (hx : xv.WF) (hd : d.WF) (hg : (gradf xv).WF) {m : ℕ}
    (hm : ArmijoPasses s beta sigma f gradf xv d m)
    (hmin : ∀ k < m, ¬ ArmijoPasses s beta sigma f gradf xv d k) :
    armijo_call s beta sigma f gradf xv d = some (.ok (s * beta ^ m)) := by
  classical
  have hHalts : ∃ k2, ArmijoHalts s beta sigma f gradf xv d k2 :=
    ⟨m, Or.inr hm⟩
  unfold armijo_call
  rw [dif_pos hHalts]
  have hfind : Nat.find hHalts = m := by
    rw [Nat.find_eq_iff]
    refine ⟨Or.inr hm, ?_⟩
    intro k hk hHk
    rcases hHk with ⟨e, he⟩ | hpk
    · obtain ⟨p2, hp2, _⟩ := hm
      obtain ⟨q, hq⟩ := armijoTest_ok_all hx hd hg ⟨p2, hp2⟩ k
      rw [hq] at he
      cases he
    · exact hmin k hk hpk
  rw [hfind]
  obtain ⟨p2, hp2, _⟩ := hm
  simp only [hp2]

/-- From a run of the fueled Armijo loop that returns a step, some exponent
passes the test. -/
lemma armijoLoop_ok_imp {s beta sigma : ℝ} {f : Matrix → ℝ}
    {gradf : Matrix → Matrix} {xv d : Matrix} :
    ∀ (fuel k : ℕ) (tv : ℝ),
      armijoLoop s beta sigma f gradf xv d k fuel = some (.ok tv) →
      ∃ m2, ArmijoPasses s beta sigma f gradf xv d m2 := by
  intro fuel
  induction fuel with
  | zero =>
    intro k tv h
    simp only [armijoLoop] at h
    simp at h
  | succ fuel ih =>
    intro k tv h
    rcases htest : armijoTest s beta sigma f gradf xv d k with e | p
    · simp only [armijoLoop, htest] at h
      simp at h
    · simp only [armijoLoop, htest] at h
      by_cases hp : p
      · exact ⟨k, p, htest, hp⟩
      · rw [if_neg hp] at h
        exact ih (k + 1) tv h

/-- If the least passing exponent is `k + cnt` and the test never throws,
the fueled loop started at `k` reaches it with `cnt + 1` units of fuel. -/
lemma armijoLoop_reaches {s beta sigma : ℝ} {f : Matrix → ℝ}
    {gradf : Matrix → Matrix} {xv d : Matrix} :
    ∀ (cnt k : ℕ),
      ArmijoPasses s beta sigma f gradf xv d (k + cnt) →
      (∀ j, k ≤ j → j < k + cnt → ¬ ArmijoPasses s beta sigma f gradf xv d j) →
      (∀ j, ∃ q, armijoTest s beta sigma f gradf xv d j = .ok q) →
      armijoLoop s beta sigma f gradf xv d k (cnt + 1) =
        some (.ok (s * beta ^ (k + cnt))) := by
  intro cnt
  induction cnt with
  | zero =>
    intro k hp _ _
    simp only [Nat.add_zero] at hp ⊢
    obtain ⟨p, hp2, htrue⟩ := hp
    simp only [armijoLoop, hp2, if_pos htrue]
  | succ cnt ih =>
    intro k hp hmin hok
    obtain ⟨q, hq⟩ := hok k
    have hnq : ¬q := fun hqt =>
      hmin k (le_refl k) (by omega) ⟨q, hq, hqt⟩
    simp only [armijoLoop, hq, if_neg hnq]
    have hshift : k + 1 + cnt = k + (cnt + 1) := by omega
    have hres := ih (k + 1) (by rw [hshift]; exact hp)
      (fun j hj1 hj2 => hmin j (by omega) (by omega)) hok
    rw [hshift] at hres
    exact hres

/-- Every successful run of the descent loop is a chain of iterations of the
specified shape, performed while the stopping criterion fails, ending at a
converged point. -/
lemma gmLoop_reaches (f : Matrix → ℝ) (gradf : Matrix → Matrix) (epsilon : ℝ) :
    ∀ (fuel : ℕ) (xk xf : Matrix),
      gmLoop f gradf epsilon xk fuel = some (.ok xf) →
      DescentReaches f gradf epsilon xk xf ∧ Converged gradf epsilon xf := by
  intro fuel
  induction fuel with
  | zero =>
    intro xk xf h
    simp only [gmLoop] at h
    simp at h
  | succ fuel ih =>
    intro xk xf h
    simp only [gmLoop] at h
    rcases hmod : (gradf xk).mod with e | nrm
    · simp only [hmod] at h
      simp at h
    · simp only [hmod] at h
      by_cases hcv : nrm < epsilon
      · rw [if_pos hcv] at h
        rcases hx1 : xk.x1 with e | v1
        · simp only [hx1] at h
          simp at h
        · simp only [hx1] at h
          rcases hx2 : xk.x2 with e | v2
          · simp only [hx2] at h
            simp at h
          · simp only [hx2] at h
            have hxkf : xk = xf := by
              injection h with h2
              injection h2
            subst hxkf
            exact ⟨DescentReaches.done xk, ⟨nrm, hmod, hcv⟩⟩
      · rw [if_neg hcv] at h
        rcases hdk : Matrix.scalarMul (-1) (gradf xk) with e | dk
        · simp only [hdk] at h
          simp at h
        · simp only [hdk] at h
          rcases hak : armijo_call 0.8 0.8 0.8 f gradf xk dk with _ | ak2
          · simp only [hak] at h
            simp at h
          · rcases ak2 with e | ak
            · simp only [hak] at h
              simp at h
            · simp only [hak] at h
              rcases hst : Matrix.scalarMul ak dk with e | step
              · simp only [hst] at h
                simp at h
              · simp only [hst] at h
                rcases hnx : xk.add step with e | xnext
                · simp only [hnx] at h
                  simp at h
                · simp only [hnx] at h
                  obtain ⟨hr, hc⟩ := ih xnext xf h
                  exact ⟨DescentReaches.step xk xnext xf ⟨nrm, hmod, hcv⟩
                    ⟨dk, ak, step, hdk, hak, hst, hnx⟩ hr, hc⟩

/-! ### The claims -/

/-- C4: for an `m×n` matrix with `m, n ≥ 1`, the linear accessors `get(i)`
and `set(i,v)` succeed exactly when `i ∈ [1, m*n]`, failing with an
out-of-range error otherwise; on success they read (write) the element at
row `((i-1) mod m)+1`, column `((i-1) div m)+1` — column-major order. -/
theorem C4_linear_access_column_major (A : Matrix) (i : ℕ) (x : ℝ)
    (hA : A.WF) (h1m : 1 ≤ A.m) (h1n : 1 ≤ A.n) (hiU : i < U32) :
    ((∃ y, A.getLin i = .ok y) ↔ (1 ≤ i ∧ i ≤ A.m * A.n)) ∧
    ((∃ B, A.setLin i x = .ok B) ↔ (1 ≤ i ∧ i ≤ A.m * A.n)) ∧
    (1 ≤ i → i ≤ A.m * A.n →
      A.getLin i = .ok (A.entry ((i - 1) % A.m + 1) ((i - 1) / A.m + 1)) ∧
      ∃ B, A.setLin i x = .ok B ∧ B.m = A.m ∧ B.n = A.n ∧
        B.entry ((i - 1) % A.m + 1) ((i - 1) / A.m + 1) = x ∧
        ∀ r c, 1 ≤ r → 1 ≤ c →
          ¬(r = (i - 1) % A.m + 1 ∧ c = (i - 1) / A.m + 1) →
          B.entry r c = A.entry r c) ∧
    (¬(1 ≤ i ∧ i ≤ A.m * A.n) →
      A.getLin i = .error .outOfRange ∧ A.setLin i x = .error .outOfRange) := by
  obtain ⟨hP, hU1, hU2, hUmn⟩ := hA
  have hro : (i - 1) % A.m < A.m := Nat.mod_lt _ (by omega)
  refine ⟨⟨?_, ?_⟩, ⟨?_, ?_⟩, ?_, ?_⟩
  · rintro ⟨y, hy⟩
    by_contra hout
    rw [Matrix.getLin_err hP h1m hUmn hiU hout] at hy
    cases hy
  · rintro ⟨h1, h2⟩
    exact ⟨_, Matrix.getLin_ok hP h1m h1 h2 hiU⟩
  · rintro ⟨B, hy⟩
    by_contra hout
    rw [Matrix.setLin_err hP x h1m hUmn hiU hout] at hy
    cases hy
  · rintro ⟨h1, h2⟩
    exact ⟨_, Matrix.setLin_ok hP x h1m hU1 hU2 h1 h2 hiU⟩
  · intro h1 h2
    have hx2 : i - 1 < A.m * A.n := by omega
    have hco : (i - 1) / A.m < A.n :=
      (Nat.div_lt_iff_lt_mul (by omega)).mpr (Nat.mul_comm A.m A.n ▸ hx2)
    refine ⟨Matrix.getLin_ok hP h1m h1 h2 hiU,
      _, Matrix.setLin_ok hP x h1m hU1 hU2 h1 h2 hiU, rfl, rfl, ?_, ?_⟩
    · exact Matrix.entry_setPure_self hP x (Nat.succ_le_succ (Nat.zero_le _))
        (by omega) (Nat.succ_le_succ (Nat.zero_le _)) (by omega)
        (by omega) (by omega)
    · intro r c hr hc hne
      exact Matrix.entry_setPure_ne x (Nat.succ_le_succ (Nat.zero_le _))
        (by omega) (Nat.succ_le_succ (Nat.zero_le _)) (by omega) hr hc hne
  · intro hout
    exact ⟨Matrix.getLin_err hP h1m hUmn hiU hout,
      Matrix.setLin_err hP x h1m hUmn hiU hout⟩

/-- C4 witness: on the 2×2 matrix `[[1,2],[3,4]]`, `get(3)` succeeds and
reads row 1, column 2 (column-major), while `set(0, v)` is out of range. -/
theorem C4_witness :
    Matrix.getLin ⟨2, 2, [[(1 : ℝ), 2], [3, 4]]⟩ 3 = .ok 2 ∧
    Matrix.setLin ⟨2, 2, [[(1 : ℝ), 2], [3, 4]]⟩ 0 7 = .error .outOfRange := by
  have hWF : (⟨2, 2, [[(1 : ℝ), 2], [3, 4]]⟩ : Matrix).WF := by
    refine ⟨⟨rfl, ?_⟩, by norm_num [U32], by norm_num [U32], by norm_num [U32]⟩
    intro r hr
    simp at hr
    rcases hr with rfl | rfl <;> rfl
  have h3 := C4_linear_access_column_major ⟨2, 2, [[(1 : ℝ), 2], [3, 4]]⟩ 3 7
    hWF (by norm_num) (by norm_num) (by norm_num [U32])
  have h0 := C4_linear_access_column_major ⟨2, 2, [[(1 : ℝ), 2], [3, 4]]⟩ 0 7
    hWF (by norm_num) (by norm_num) (by norm_num [U32])
  constructor
  · have hok := (h3.2.2.1 (by norm_num) (by norm_num)).1
    rw [hok]
    norm_num [Matrix.entry]
  · exact (h0.2.2.2 (by norm_num)).2

/-- C5: scalar division `A / s` produces the matrix of the same shape whose
`(i,j)` entry is `s / A[i,j]` — the scalar divided by the element, not the
element divided by the scalar. -/
theorem C5_scalar_division_quirk (A : Matrix) (s : ℝ) (hA : A.WF) :
    A.divScalar s =
      .ok ⟨A.m, A.n, ofFun A.m A.n (fun i j => s / A.entry i j)⟩ ∧
    ∀ i j, 1 ≤ i → i ≤ A.m → 1 ≤ j → j ≤ A.n →
      (⟨A.m, A.n, ofFun A.m A.n (fun i j => s / A.entry i j)⟩ :
        Matrix).entry i j = s / A.entry i j := by
  obtain ⟨hP, hU1, hU2, _⟩ := hA
  refine ⟨Matrix.divScalar_ok hP hU1 hU2 s, ?_⟩
  intro i j h1 h2 h3 h4
  exact Matrix.entry_ofFun _ h1 h2 h3 h4

/-- C5 witness: the 1×1 matrix filled with `2.0`, divided by `4.0`, yields
`4.0 / 2.0 = 2.0`, not `0.5`. -/
theorem C5_witness :
    Matrix.divScalar ⟨1, 1, [[(2 : ℝ)]]⟩ 4 = .ok ⟨1, 1, [[(2 : ℝ)]]⟩ := by
  have hWF : (⟨1, 1, [[(2 : ℝ)]]⟩ : Matrix).WF := by
    refine ⟨⟨rfl, ?_⟩, by norm_num [U32], by norm_num [U32], by norm_num [U32]⟩
    intro r hr
    simp at hr
    subst hr
    rfl
  have h := (C5_scalar_division_quirk ⟨1, 1, [[(2 : ℝ)]]⟩ 4 hWF).1
  rw [h]
  congr 2
  have hr1 : List.range 1 = [0] := by simp [List.range_succ]
  simp only [ofFun, hr1, List.map_cons, List.map_nil]
  norm_num [Matrix.entry]

/-- C8: transpose is an involution — transposing twice returns the original
matrix, in dimensions and elementwise. -/
theorem C8_transpose_involution (A : Matrix) (hA : A.WF) :
    ∃ B, A.transpose = .ok B ∧ B.transpose = .ok A := by
  obtain ⟨hP, hU1, hU2, _⟩ := hA
  refine ⟨_, Matrix.transpose_ok hP hU1 hU2, ?_⟩
  have hBP := Matrix.ofFun_perfect A.n A.m (fun i j => A.entry j i)
  have hB2 := Matrix.transpose_ok
    (A := ⟨A.n, A.m, ofFun A.n A.m (fun i j => A.entry j i)⟩) hBP hU2 hU1
  rw [hB2]
  have hback := Matrix.eq_mk_ofFun hP
    (g := fun i j => (⟨A.n, A.m, ofFun A.n A.m
      (fun i2 j2 => A.entry j2 i2)⟩ : Matrix).entry j i) ?_
  · exact congrArg Except.ok hback.symm
  · intro i j h1 h2 h3 h4
    dsimp only
    rw [Matrix.entry_ofFun _ h3 h4 h1 h2]

/-- C8 witness: double transpose of the 2×3 matrix `[[1,2,3],[4,5,6]]`
recovers it. -/
theorem C8_witness :
    ∃ B, Matrix.transpose ⟨2, 3, [[(1 : ℝ), 2, 3], [4, 5, 6]]⟩ = .ok B ∧
      B.transpose = .ok ⟨2, 3, [[(1 : ℝ), 2, 3], [4, 5, 6]]⟩ := by
  apply C8_transpose_involution
  refine ⟨⟨rfl, ?_⟩, by norm_num [U32], by norm_num [U32], by norm_num [U32]⟩
  intro r hr
  simp at hr
  rcases hr with rfl | rfl <;> rfl

/-- C9: for an `m×n` matrix with `m, n ≥ 1`, `mod()` is the Euclidean norm
of all `m*n` elements treated as one flat sequence — the square root of the
sum of the squares of every element. -/
theorem C9_mod_euclidean_norm (A : Matrix) (hA : A.WF)
    (h1m : 1 ≤ A.m) (h1n : 1 ≤ A.n) :
    A.mod = .ok (Real.sqrt (∑ i ∈ Finset.range A.m, ∑ j ∈ Finset.range A.n,
      A.entry (i + 1) (j + 1) * A.entry (i + 1) (j + 1))) := by
  obtain ⟨hP, hU1, hU2, hUmn⟩ := hA
  rw [Matrix.mod_ok hP h1m hUmn]
  rw [sum_range_mul_divmod A.m A.n h1m
    (fun i j => A.entry (i + 1) (j + 1) * A.entry (i + 1) (j + 1))]

/-- C9 witness: `mod()` of the column vector `[3, 4]` is `5.0`. -/
theorem C9_witness :
    Matrix.mod ⟨2, 1, [[(3 : ℝ)], [4]]⟩ = .ok 5 := by
  have hWF : (⟨2, 1, [[(3 : ℝ)], [4]]⟩ : Matrix).WF := by
    refine ⟨⟨rfl, ?_⟩, by norm_num [U32], by norm_num [U32], by norm_num [U32]⟩
    intro r hr
    simp at hr
    rcases hr with rfl | rfl <;> rfl
  rw [C9_mod_euclidean_norm ⟨2, 1, [[(3 : ℝ)], [4]]⟩ hWF (by norm_num) (by norm_num)]
  congr 1
  have hsum : (∑ i ∈ Finset.range 2, ∑ j ∈ Finset.range 1,
      (⟨2, 1, [[(3 : ℝ)], [4]]⟩ : Matrix).entry (i + 1) (j + 1) *
        (⟨2, 1, [[(3 : ℝ)], [4]]⟩ : Matrix).entry (i + 1) (j + 1)) = 25 := by
    simp [Finset.sum_range_succ, Matrix.entry]
    norm_num
  rw [hsum, show (25 : ℝ) = 5 ^ 2 by norm_num,
    Real.sqrt_sq (by norm_num : (0 : ℝ) ≤ 5)]

/-- C6: `det2()` raises the shape-precondition error exactly when both
dimensions differ from 2; when `m = 2` or `n = 2` the guard passes, and
`det2` returns `a11*a22 − a12*a21` if both dimensions are at least 2, while
a matrix that passes the guard with a dimension smaller than 2 fails with an
index-out-of-range error instead. -/
theorem C6_det2_guard_boundary (A : Matrix) (hA : A.WF) :
    ((∃ msg, A.det2 = .error (.invalidArgument msg)) ↔ (A.m ≠ 2 ∧ A.n ≠ 2)) ∧
    (A.m ≠ 2 ∧ A.n ≠ 2 →
      A.det2 = .error (.invalidArgument ("Can\x27t apply det2 to a non 2x2 matrix"))) ∧
    ((A.m = 2 ∨ A.n = 2) → 2 ≤ A.m → 2 ≤ A.n →
      A.det2 = .ok (A.entry 1 1 * A.entry 2 2 - A.entry 1 2 * A.entry 2 1)) ∧
    ((A.m = 2 ∨ A.n = 2) → (A.m < 2 ∨ A.n < 2) → A.det2 = .error .outOfRange) := by
  obtain ⟨hP, hU1, hU2, _⟩ := hA
  have h1U : (1 : ℕ) < U32 := by norm_num [U32]
  have h2U : (2 : ℕ) < U32 := by norm_num [U32]
  have hguardmsg : A.m ≠ 2 ∧ A.n ≠ 2 →
      A.det2 = .error (.invalidArgument ("Can\x27t apply det2 to a non 2x2 matrix")) := by
    intro h
    rw [Matrix.det2, if_pos h]
  refine ⟨⟨?_, fun h => ⟨_, hguardmsg h⟩⟩, hguardmsg, ?_, ?_⟩
  · rintro ⟨msg, hmsg⟩
    by_contra hguard
    rw [Matrix.det2, if_neg hguard] at hmsg
    rcases Matrix.get_kind (A := A) (i := 1) (j := 1) with ⟨y11, hy11⟩ | he11
    · rcases Matrix.get_kind (A := A) (i := 2) (j := 2) with ⟨y22, hy22⟩ | he22
      · rcases Matrix.get_kind (A := A) (i := 1) (j := 2) with ⟨y12, hy12⟩ | he12
        · rcases Matrix.get_kind (A := A) (i := 2) (j := 1) with ⟨y21, hy21⟩ | he21
          · simp only [hy11, hy22, hy12, hy21] at hmsg
            cases hmsg
          · simp only [hy11, hy22, hy12, he21] at hmsg
            cases hmsg
        · simp only [hy11, hy22, he12] at hmsg
          cases hmsg
      · simp only [hy11, he22] at hmsg
        cases hmsg
    · simp only [he11] at hmsg
      cases hmsg
  · intro hor h2m h2n
    have hng : ¬(A.m ≠ 2 ∧ A.n ≠ 2) := by
      rcases hor with h | h
      · exact fun hc => hc.1 h
      · exact fun hc => hc.2 h
    rw [Matrix.det2, if_neg hng,
      Matrix.get_ok hP (by omega) (by omega) (by omega) (by omega) h1U h1U,
      Matrix.get_ok hP (by omega) (by omega) (by omega) (by omega) h2U h2U,
      Matrix.get_ok hP (by omega) (by omega) (by omega) (by omega) h1U h2U,
      Matrix.get_ok hP (by omega) (by omega) (by omega) (by omega) h2U h1U]
  · intro hor hsmall
    have hng : ¬(A.m ≠ 2 ∧ A.n ≠ 2) := by
      rcases hor with h | h
      · exact fun hc => hc.1 h
      · exact fun hc => hc.2 h
    rw [Matrix.det2, if_neg hng]
    by_cases h11 : 1 ≤ A.m ∧ 1 ≤ A.n
    · rw [Matrix.get_ok hP (by omega) (by omega) (by omega) (by omega) h1U h1U,
        Matrix.get_err hP hU1 hU2 h2U h2U (by omega)]
    · rw [Matrix.get_err hP hU1 hU2 h1U h1U (by omega)]

/-- C6 witness: `det2` on the 2×2 matrix `[[1,2],[3,4]]` is `1*4 − 2*3 = −2`. -/
theorem C6_witness :
    Matrix.det2 ⟨2, 2, [[(1 : ℝ), 2], [3, 4]]⟩ = .ok (-2) := by
  have hWF : (⟨2, 2, [[(1 : ℝ), 2], [3, 4]]⟩ : Matrix).WF := by
    refine ⟨⟨rfl, ?_⟩, by norm_num [U32], by norm_num [U32], by norm_num [U32]⟩
    intro r hr
    simp at hr
    rcases hr with rfl | rfl <;> rfl
  have h := (C6_det2_guard_boundary ⟨2, 2, [[(1 : ℝ), 2], [3, 4]]⟩ hWF).2.2.1
    (Or.inl rfl) (by norm_num) (by norm_num)
  rw [h]
  norm_num [Matrix.entry]

/-- C7 counterexample: adding a 2×2 matrix to a 1×1 matrix — shapes unequal —
does NOT report an error: it succeeds with the 1×1 partial result `[[5+1]]`,
because the loops range over the left operand's dimensions only. -/
theorem C7_counterexample :
    ¬((⟨1, 1, [[(5 : ℝ)]]⟩ : Matrix).m = (⟨2, 2, [[(1 : ℝ), 2], [3, 4]]⟩ : Matrix).m ∧
      (⟨1, 1, [[(5 : ℝ)]]⟩ : Matrix).n = (⟨2, 2, [[(1 : ℝ), 2], [3, 4]]⟩ : Matrix).n) ∧
    (⟨1, 1, [[(5 : ℝ)]]⟩ : Matrix).add ⟨2, 2, [[(1 : ℝ), 2], [3, 4]]⟩ =
      .ok ⟨1, 1, [[(6 : ℝ)]]⟩ := by
  constructor
  · rintro ⟨h1, _⟩
    exact absurd h1 (by norm_num)
  · have hAP : (⟨1, 1, [[(5 : ℝ)]]⟩ : Matrix).Perfect := by
      refine ⟨rfl, ?_⟩
      intro r hr
      simp at hr
      subst hr
      rfl
    have hBP : (⟨2, 2, [[(1 : ℝ), 2], [3, 4]]⟩ : Matrix).Perfect := by
      refine ⟨rfl, ?_⟩
      intro r hr
      simp at hr
      rcases hr with rfl | rfl <;> rfl
    have h := Matrix.add_ok hAP hBP (by norm_num [U32]) (by norm_num [U32])
      (by norm_num) (by norm_num)
    rw [h]
    congr 2
    have hr1 : List.range 1 = [0] := by simp [List.range_succ]
    simp only [ofFun, hr1, List.map_cons, List.map_nil]
    norm_num [Matrix.entry]

/-- C7 amended: elementwise `+`/`-` succeed — with the left operand's shape
and elementwise values over it — exactly when the right operand has at least
as many rows and columns as the left; they report an out-of-range error
exactly when the right operand has fewer rows or fewer columns (given a
nonempty left operand).  Equal shapes are the special case giving the usual
elementwise sum and difference; no broadcasting occurs. -/
theorem C7_elementwise_dims_amended (A B : Matrix) (hA : A.WF) (hB : B.WF)
    (h1m : 1 ≤ A.m) (h1n : 1 ≤ A.n) :
    ((A.m ≤ B.m ∧ A.n ≤ B.n) →
      A.add B = .ok ⟨A.m, A.n, ofFun A.m A.n
        (fun i j => A.entry i j + B.entry i j)⟩ ∧
      A.sub B = .ok ⟨A.m, A.n, ofFun A.m A.n
        (fun i j => A.entry i j - B.entry i j)⟩) ∧
    ((B.m < A.m ∨ B.n < A.n) →
      A.add B = .error .outOfRange ∧ A.sub B = .error .outOfRange) := by
  obtain ⟨hAP, hAU1, hAU2, _⟩ := hA
  obtain ⟨hBP, _, _, _⟩ := hB
  constructor
  · rintro ⟨hbm, hbn⟩
    exact ⟨Matrix.add_ok hAP hBP hAU1 hAU2 hbm hbn,
      Matrix.sub_ok hAP hBP hAU1 hAU2 hbm hbn⟩
  · intro hlt
    exact ⟨Matrix.add_err hAP hBP hAU1 hAU2 h1m h1n hlt,
      Matrix.sub_err hAP hBP hAU1 hAU2 h1m h1n hlt⟩

/-- C7 witness: a 1×1 left operand with an empty right operand errors with
out-of-range on both `+` and `-`. -/
theorem C7_witness :
    (⟨1, 1, [[(1 : ℝ)]]⟩ : Matrix).add ⟨0, 0, []⟩ = .error .outOfRange ∧
    (⟨1, 1, [[(1 : ℝ)]]⟩ : Matrix).sub ⟨0, 0, []⟩ = .error .outOfRange := by
  have hWA : (⟨1, 1, [[(1 : ℝ)]]⟩ : Matrix).WF := by
    refine ⟨⟨rfl, ?_⟩, by norm_num [U32], by norm_num [U32], by norm_num [U32]⟩
    intro r hr
    simp at hr
    subst hr
    rfl
  have hWB : (⟨0, 0, []⟩ : Matrix).WF := by
    refine ⟨⟨rfl, ?_⟩, by norm_num [U32], by norm_num [U32], by norm_num [U32]⟩
    intro r hr
    cases hr
  exact (C7_elementwise_dims_amended ⟨1, 1, [[(1 : ℝ)]]⟩ ⟨0, 0, []⟩ hWA hWB
    (by norm_num) (by norm_num)).2 (Or.inl (by norm_num))

/-- C2: for well-formed column vectors `x`, `d` (and gradient value) of
matching length, whenever some integer `m ≥ 0` satisfies the sufficient-
decrease condition `f(x) − f(x + s·β^m·d) ≥ −σ·s·β^m·(∇f(x)ᵗd)`, the Armijo
search returns the step `t = s·β^m` for the smallest such `m`. -/
theorem C2_armijo_returns_least_step (s beta sigma : ℝ) (f : Matrix → ℝ)
    (gradf : Matrix → Matrix) (xv d : Matrix) (m : ℕ)
    (hx : xv.WF) (hd : d.WF) (hg : (gradf xv).WF)
    (hxn : xv.n = 1) (hdn : d.n = 1) (hgn : (gradf xv).n = 1)
    (hxm : xv.m = d.m) (hgm : (gradf xv).m = d.m)
    (hm : ArmijoCondSpec s beta sigma f gradf xv d m)
    (hmin : ∀ k < m, ¬ ArmijoCondSpec s beta sigma f gradf xv d k) :
    armijo_call s beta sigma f gradf xv d = some (.ok (s * beta ^ m)) := by
  have hbr := fun k => armijoTest_eq_condSpec s beta sigma f gradf xv d
    hx hd hg hxn hdn hgn hxm hgm k
  have hPassIff : ∀ k, ArmijoPasses s beta sigma f gradf xv d k ↔
      ArmijoCondSpec s beta sigma f gradf xv d k := by
    intro k
    constructor
    · rintro ⟨p, hp, htrue⟩
      rw [hbr k] at hp
      injection hp with h2
      subst h2
      exact htrue
    · intro hc
      exact ⟨_, hbr k, hc⟩
  exact armijo_call_eq hx hd hg ((hPassIff m).mpr hm)
    (fun k hk hp => hmin k hk ((hPassIff k).mp hp))

/-- C2 witness: with the constant objective `f = 0`, zero gradient and zero
direction on 1×1 vectors, the condition holds at `m = 0` and the search
returns `0.8 * 0.8 ^ 0`. -/
theorem C2_witness :
    armijo_call 0.8 0.8 0.8 (fun _ => (0 : ℝ)) (fun _ => ⟨1, 1, [[(0 : ℝ)]]⟩)
      ⟨1, 1, [[(0 : ℝ)]]⟩ ⟨1, 1, [[(0 : ℝ)]]⟩ = some (.ok (0.8 * 0.8 ^ 0)) := by
  have hWF : (⟨1, 1, [[(0 : ℝ)]]⟩ : Matrix).WF := by
    refine ⟨⟨rfl, ?_⟩, by norm_num [U32], by norm_num [U32], by norm_num [U32]⟩
    intro r hr
    simp at hr
    subst hr
    rfl
  refine C2_armijo_returns_least_step 0.8 0.8 0.8 (fun _ => (0 : ℝ))
    (fun _ => ⟨1, 1, [[(0 : ℝ)]]⟩) ⟨1, 1, [[(0 : ℝ)]]⟩ ⟨1, 1, [[(0 : ℝ)]]⟩ 0
    hWF hWF hWF rfl rfl rfl rfl rfl ?_ (fun k hk => absurd hk (Nat.not_lt_zero k))
  show (0 : ℝ) - 0 ≥ -0.8 * 0.8 * 0.8 ^ 0 * colDot ⟨1, 1, [[(0 : ℝ)]]⟩ ⟨1, 1, [[(0 : ℝ)]]⟩
  have hcd : colDot ⟨1, 1, [[(0 : ℝ)]]⟩ ⟨1, 1, [[(0 : ℝ)]]⟩ = 0 := by
    simp [colDot, Matrix.entry]
  rw [hcd]
  norm_num

/-- C3: the Armijo loop has no iteration cap — started at exponent 0, it
returns a step for some amount of fuel exactly when some exponent `m ≥ 0`
passes the sufficient-decrease test; when no exponent passes, no amount of
fuel makes it return a step (it loops forever, or dies on a thrown
exception, which is not a return). -/
theorem C3_armijo_no_iteration_cap (s beta sigma : ℝ) (f : Matrix → ℝ)
    (gradf : Matrix → Matrix) (xv d : Matrix)
    (hx : xv.WF) (hd : d.WF) (hg : (gradf xv).WF) :
    (∃ fuel tv, armijoLoop s beta sigma f gradf xv d 0 fuel = some (.ok tv)) ↔
      ∃ m, ArmijoPasses s beta sigma f gradf xv d m := by
  constructor
  · rintro ⟨fuel, tv, h⟩
    exact armijoLoop_ok_imp fuel 0 tv h
  · intro hex
    classical
    refine ⟨Nat.find hex + 1, s * beta ^ (Nat.find hex), ?_⟩
    have hspec := Nat.find_spec hex
    have hok : ∀ j, ∃ q, armijoTest s beta sigma f gradf xv d j = .ok q := by
      obtain ⟨p2, hp2, _⟩ := hspec
      exact fun j => armijoTest_ok_all hx hd hg ⟨p2, hp2⟩ j
    have hres := armijoLoop_reaches (Nat.find hex) 0
      (by simpa using hspec)
      (fun j hj1 hj2 => by
        have hlt : j < Nat.find hex := by omega
        simpa using Nat.find_min hex hlt)
      hok
    simpa using hres

/-- C3 witness: the iff at a concrete input (constant zero objective on 1×1
vectors), where both sides hold at exponent 0. -/
theorem C3_witness :
    ((∃ fuel tv, armijoLoop 0.8 0.8 0.8 (fun _ => (0 : ℝ))
        (fun _ => ⟨1, 1, [[(0 : ℝ)]]⟩) ⟨1, 1, [[(0 : ℝ)]]⟩ ⟨1, 1, [[(0 : ℝ)]]⟩
        0 fuel = some (.ok tv)) ↔
      ∃ m, ArmijoPasses 0.8 0.8 0.8 (fun _ => (0 : ℝ))
        (fun _ => ⟨1, 1, [[(0 : ℝ)]]⟩) ⟨1, 1, [[(0 : ℝ)]]⟩ ⟨1, 1, [[(0 : ℝ)]]⟩ m) := by
  have hWF : (⟨1, 1, [[(0 : ℝ)]]⟩ : Matrix).WF := by
    refine ⟨⟨rfl, ?_⟩, by norm_num [U32], by norm_num [U32], by norm_num [U32]⟩
    intro r hr
    simp at hr
    subst hr
    rfl
  exact C3_armijo_no_iteration_cap 0.8 0.8 0.8 (fun _ => (0 : ℝ))
    (fun _ => ⟨1, 1, [[(0 : ℝ)]]⟩) ⟨1, 1, [[(0 : ℝ)]]⟩ ⟨1, 1, [[(0 : ℝ)]]⟩
    hWF hWF hWF

/-- C1: whenever `gradient_method` terminates normally, it returns an
iterate at which `‖∇f(x)‖ < ε`, and the whole run from `x0` to the result is
a chain of iterations, each computing `dk = −∇f(xk)`, obtaining `ak` from
the Armijo search with the hardcoded parameters `(0.8, 0.8, 0.8)`, and
updating `x_{k+1} = xk + ak·dk`. -/
theorem C1_gradient_method_spec (f : Matrix → ℝ) (gradf : Matrix → Matrix)
    (x0 : Matrix) (epsilon : ℝ) (fuel : ℕ) (xf : Matrix)
    (h : gradient_method f gradf x0 epsilon fuel = some (.ok xf)) :
    Converged gradf epsilon xf ∧ DescentReaches f gradf epsilon x0 xf := by
  unfold gradient_method at h
  rcases h1 : x0.x1 with e | v1
  · simp only [h1] at h
    simp at h
  · simp only [h1] at h
    rcases h2 : x0.x2 with e | v2
    · simp only [h2] at h
      simp at h
    · simp only [h2] at h
      obtain ⟨hr, hc⟩ := gmLoop_reaches f gradf epsilon fuel x0 xf h
      exact ⟨hc, hr⟩

/-- C1 witness: with the zero gradient, the driver converges immediately
from the 2×1 start point `(1, 2)` and returns it; the run is the empty chain
at a converged point. -/
theorem C1_witness :
    gradient_method (fun _ => (0 : ℝ)) (fun _ => Matrix.ofDim 2 1 0)
      ⟨2, 1, [[(1 : ℝ)], [2]]⟩ 1 1 = some (.ok ⟨2, 1, [[(1 : ℝ)], [2]]⟩) ∧
    Converged (fun _ => Matrix.ofDim 2 1 0) 1 ⟨2, 1, [[(1 : ℝ)], [2]]⟩ ∧
    DescentReaches (fun _ => (0 : ℝ)) (fun _ => Matrix.ofDim 2 1 0) 1
      ⟨2, 1, [[(1 : ℝ)], [2]]⟩ ⟨2, 1, [[(1 : ℝ)], [2]]⟩ := by
  have hu1 : uSub1 1 = 0 := by norm_num [uSub1, U32]
  have hx1 : (⟨2, 1, [[(1 : ℝ)], [2]]⟩ : Matrix).x1 = .ok 1 := by
    rw [Matrix.x1, if_pos ⟨rfl, rfl⟩]
    simp [Matrix.get, hu1]
  have hu2 : uSub1 2 = 1 := by norm_num [uSub1, U32]
  have hx2 : (⟨2, 1, [[(1 : ℝ)], [2]]⟩ : Matrix).x2 = .ok 2 := by
    rw [Matrix.x2, if_pos ⟨rfl, rfl⟩]
    simp [Matrix.get, hu1, hu2]
  have hmod : (Matrix.ofDim 2 1 (0 : ℝ)).mod = .ok 0 := by
    rw [Matrix.mod_ok (Matrix.ofDim_perfect 2 1 0) (show (1 : ℕ) ≤ 2 by norm_num)
      (show 2 * 1 < U32 by norm_num [U32])]
    have hsum : (∑ k ∈ Finset.range ((Matrix.ofDim 2 1 (0 : ℝ)).m *
        (Matrix.ofDim 2 1 (0 : ℝ)).n),
        (Matrix.ofDim 2 1 (0 : ℝ)).entry (k % (Matrix.ofDim 2 1 (0 : ℝ)).m + 1)
            (k / (Matrix.ofDim 2 1 (0 : ℝ)).m + 1) *
          (Matrix.ofDim 2 1 (0 : ℝ)).entry (k % (Matrix.ofDim 2 1 (0 : ℝ)).m + 1)
            (k / (Matrix.ofDim 2 1 (0 : ℝ)).m + 1)) = 0 := by
      simp [Matrix.ofDim, Matrix.entry, Finset.sum_range_succ]
    rw [hsum, Real.sqrt_zero]
  have hgml : gmLoop (fun _ => (0 : ℝ)) (fun _ => Matrix.ofDim 2 1 0) 1
      ⟨2, 1, [[(1 : ℝ)], [2]]⟩ 1 = some (.ok ⟨2, 1, [[(1 : ℝ)], [2]]⟩) := by
    show gmLoop (fun _ => (0 : ℝ)) (fun _ => Matrix.ofDim 2 1 0) 1
      ⟨2, 1, [[(1 : ℝ)], [2]]⟩ (0 + 1) = some (.ok ⟨2, 1, [[(1 : ℝ)], [2]]⟩)
    simp only [gmLoop, hmod, hx1, hx2, if_pos (show (0 : ℝ) < 1 by norm_num)]
  have hrun : gradient_method (fun _ => (0 : ℝ)) (fun _ => Matrix.ofDim 2 1 0)
      ⟨2, 1, [[(1 : ℝ)], [2]]⟩ 1 1 = some (.ok ⟨2, 1, [[(1 : ℝ)], [2]]⟩) := by
    simp only [gradient_method, hx1, hx2, hgml]
  have hc := C1_gradient_method_spec (fun _ => (0 : ℝ))
    (fun _ => Matrix.ofDim 2 1 0) ⟨2, 1, [[(1 : ℝ)], [2]]⟩ 1 1
    ⟨2, 1, [[(1 : ℝ)], [2]]⟩ hrun
  exact ⟨hrun, hc.1, hc.2⟩

/-- C10: `gradient_method` throws "Not a 2x1 column vector" for every start
point that is not exactly 2×1, before performing any iteration — the
diagnostic print of the initial point calls `x0.x1()` and `x0.x2()` — even
when the gradient at `x0` would satisfy the stopping criterion at once. -/
theorem C10_start_point_must_be_2x1 (f : Matrix → ℝ)
    (gradf : Matrix → Matrix) (x0 : Matrix) (epsilon : ℝ) (fuel : ℕ)
    (h : ¬(x0.m = 2 ∧ x0.n = 1)) :
    gradient_method f gradf x0 epsilon fuel =
      some (.error (.invalidArgument ("Not a 2x1 column vector"))) := by
  unfold gradient_method
  rw [Matrix.x1_err h]

/-- C10 witness: a 1×1 start point whose gradient is identically zero (so
`‖∇f(x0)‖ = 0 < ε` would converge immediately) still fails with the 2×1
error, with any fuel. -/
theorem C10_witness :
    (Matrix.ofDim 1 1 (0 : ℝ)).mod = .ok 0 ∧ ((0 : ℝ) < 1) ∧
    gradient_method (fun _ => (0 : ℝ)) (fun _ => Matrix.ofDim 1 1 0)
      ⟨1, 1, [[(3 : ℝ)]]⟩ 1 5 =
      some (.error (.invalidArgument ("Not a 2x1 column vector"))) := by
  refine ⟨?_, by norm_num, ?_⟩
  · rw [Matrix.mod_ok (Matrix.ofDim_perfect 1 1 0) (show (1 : ℕ) ≤ 1 by norm_num)
      (show 1 * 1 < U32 by norm_num [U32])]
    have hsum : (∑ k ∈ Finset.range ((Matrix.ofDim 1 1 (0 : ℝ)).m *
        (Matrix.ofDim 1 1 (0 : ℝ)).n),
        (Matrix.ofDim 1 1 (0 : ℝ)).entry (k % (Matrix.ofDim 1 1 (0 : ℝ)).m + 1)
            (k / (Matrix.ofDim 1 1 (0 : ℝ)).m + 1) *
          (Matrix.ofDim 1 1 (0 : ℝ)).entry (k % (Matrix.ofDim 1 1 (0 : ℝ)).m + 1)
            (k / (Matrix.ofDim 1 1 (0 : ℝ)).m + 1)) = 0 := by
      simp [Matrix.ofDim, Matrix.entry, Finset.sum_range_succ]
    rw [hsum, Real.sqrt_zero]
  · apply C10_start_point_must_be_2x1
    rintro ⟨hm, _⟩
    simp at hm

end UOpt
